import Mathlib

/-!
# StateAtoms: a shallow embedding of the library in Lean 4

This file embeds the core of the StateAtoms TypeScript library
(`src/Atom.ts`, `src/AtomContainer.ts`, `src/utils/InitValidationHelper.ts`)
and proves the specification claims about it.

The embedding has three layers, each translated from the source:

* an *event-dispatch* layer modelling EventEmitter3's synchronous,
  registration-order listener invocation together with the container's
  forwarding listeners (`_beforeChangeListener` / `_changeListener` /
  `_addHistoryListener`, `AtomContainer.add`, `AtomContainer.initHistory`);
* an *atom-local* layer modelling `Atom.set value` / `Atom.updateValue`
  as a trace of emissions, each recording the payload passed to listeners
  and the value a listener would observe by reading `.value` during that
  emission;
* a *tree* layer modelling a container instance as a value: its member
  map (insertion-ordered, as `Object.entries` enumerates), its history
  stack and cursor, and its `InitValidationHelper` flags, with the
  operations `toObject`, `fromObject`, `fromJson`, `addHistory`, `undo`,
  `redo`, `load` translated clause by clause from `AtomContainer.ts`.
-/

namespace StateAtoms

/-! ## Event names and listeners (EventEmitter3 layer)

`AtomEvents` in `AtomEvents.ts` declares the three event names used by
atoms and containers. A listener registered on an emitter is either one
of the container-owned forwarding listeners (`_beforeChangeListener`
etc., identified per parent container; in the linear chains considered
here there is a single parent, so a single `forward` constructor
suffices), the container's own `_historyListener`, or an
application-level listener (`user`), tagged for identification. -/

inductive EventName where
  | beforeChange
  | change
  | addHistory
deriving DecidableEq, Repr

inductive Listener where
  | forward
  | historyListener
  | user (tag : Nat)
deriving DecidableEq, Repr

/-- The listener registry of one emitter: one list per event name, in
registration order, exactly as EventEmitter3 stores and invokes them. -/
structure ListenerSet where
  beforeChange : List Listener
  change : List Listener
  addHistory : List Listener
deriving DecidableEq, Repr

namespace ListenerSet

/-- The empty registry of a freshly constructed emitter. -/
def empty : ListenerSet := ⟨[], [], []⟩

/-- `emitter.listeners(e)` — the registration-ordered listener list. -/
def get (s : ListenerSet) : EventName → List Listener
  | .beforeChange => s.beforeChange
  | .change => s.change
  | .addHistory => s.addHistory

/-- `emitter.on(e, l)` — EventEmitter3 appends the listener. -/
def onEvent (s : ListenerSet) (e : EventName) (l : Listener) : ListenerSet :=
  match e with
  | .beforeChange => { s with beforeChange := s.beforeChange ++ [l] }
  | .change => { s with change := s.change ++ [l] }
  | .addHistory => { s with addHistory := s.addHistory ++ [l] }

end ListenerSet

/-! ## Synchronous emission along a parent chain

A chain `[(id₀, s₀), (id₁, s₁), …]` lists an emitter and its ancestors,
starting at the emitting node and ending at the root; `idᵢ` is a node
identifier used only to label observations, `sᵢ` the node's listener
registry. `emit` on a node invokes the node's listeners for the event in
registration order (EventEmitter3 semantics); a `forward` listener is the
parent container's forwarding listener, whose body is
`this.emit(event, arg)` — a synchronous re-emission on the parent, i.e.
on the rest of the chain — and a `user` listener records the observation
`(nodeId, event)`. `historyListener` calls `addHistory`, which records no
observation and forwards nothing. -/

/-- Run one listener list at node `id`; `parents` interprets a
forwarding listener by emitting on the ancestor chain. -/
def runListeners (parents : EventName → List (Nat × EventName)) (id : Nat)
    (e : EventName) : List Listener → List (Nat × EventName)
  | [] => []
  | .forward :: rest => parents e ++ runListeners parents id e rest
  | .historyListener :: rest => runListeners parents id e rest
  | .user _ :: rest => (id, e) :: runListeners parents id e rest

/-- Emit event `e` at the head of the chain; observations are the
`(nodeId, event)` pairs seen by `user` listeners, in invocation order. -/
def emitOn : List (Nat × ListenerSet) → EventName → List (Nat × EventName)
  | [], _ => []
  | (id, s) :: parents, e => runListeners (emitOn parents) id e (s.get e)

/-- `Atom.updateValue` emits `beforeChange`, stores the value, then emits
`change`; the observation sequence of one atom mutation is therefore the
`beforeChange` emission followed by the `change` emission. -/
def updateValueEmissions (chain : List (Nat × ListenerSet)) :
    List (Nat × EventName) :=
  emitOn chain .beforeChange ++ emitOn chain .change

/-! ## The doubly nested container of claim C1

A root container holding an intermediate container holding a leaf atom
(node ids: 0 = root, 1 = intermediate, 2 = leaf). Construction order in
the source: the intermediate container's constructor runs `init()` →
`addMembers` → `add(leaf)`, registering its three forwarding listeners
on the leaf; then the root's `init()` registers the root's forwarding
listeners on the intermediate container. Only afterwards can
application code register listeners, so every application listener sits
behind the forwarding listener in its emitter's registration-ordered
list. -/

structure Chain3 where
  root : ListenerSet
  mid : ListenerSet
  leaf : ListenerSet
deriving DecidableEq, Repr

/-- Listener state right after the nested construction completes:
the leaf atom carries the intermediate container's forwarders, the
intermediate container carries the root's forwarders. -/
def Chain3.constructed : Chain3 :=
  { root := ListenerSet.empty
    mid := ⟨[.forward], [.forward], [.forward]⟩
    leaf := ⟨[.forward], [.forward], [.forward]⟩ }

/-- Application code registers one listener (`emitter.on(e, cb)`) on the
node at the given level: 0 = root, 1 = intermediate, 2 = leaf. -/
def applyReg (c : Chain3) : Nat × EventName → Chain3
  | (0, e) => { c with root := c.root.onEvent e (.user 0) }
  | (1, e) => { c with mid := c.mid.onEvent e (.user 0) }
  | (2, e) => { c with leaf := c.leaf.onEvent e (.user 0) }
  | _ => c

/-- Run a whole registration sequence, first to last. -/
def applyRegs (c : Chain3) (rs : List (Nat × EventName)) : Chain3 :=
  rs.foldl applyReg c

/-- One `beforeChange` and one `change` listener at each of the three
levels, in one particular order; claim C1 quantifies over all
permutations of this sequence. -/
def canonicalRegs : List (Nat × EventName) :=
  [(0, .beforeChange), (0, .change), (1, .beforeChange), (1, .change),
   (2, .beforeChange), (2, .change)]

/-- The emission chain of a leaf-atom mutation: the leaf emits, its
events forward to the intermediate container and from there to the
root. -/
def chainOf (c : Chain3) : List (Nat × ListenerSet) :=
  [(2, c.leaf), (1, c.mid), (0, c.root)]

/-! ## Atom-local mutation semantics (`Atom.set value` / `updateValue`)

`Atom<T>` gates mutation on an equality policy: the base class compares
with JavaScript `===`, `ObjectAtom` overrides the setter to use
`deepEqual`. A mutation that passes the gate builds the payload once
(`const args = { from: this, value: newValue, valueFrom: oldValue }`),
emits `beforeChange` while `_value` still holds the old value, assigns
`this._value = newValue`, then emits `change`. Dispatch is synchronous,
so a listener reading `.value` during an emission sees `_value` at that
moment; each emission is recorded with that observable value. -/

/-- The payload handed to `beforeChange` / `change` listeners. The
`from` field (a self reference) is omitted: for a single atom it always
denotes the atom itself. -/
structure AtomEventArgs (T : Type) where
  value : T
  valueFrom : T
deriving DecidableEq, Repr

/-- One emission as its listeners observe it: event name, payload, and
the result of reading `.value` during the (synchronous) dispatch. -/
structure AtomEmission (T : Type) where
  name : EventName
  args : AtomEventArgs T
  observedValue : T
deriving DecidableEq, Repr

/-- `Atom.updateValue(oldValue, newValue)`: build the args object, emit
`beforeChange` (storage not yet updated), store, emit `change`. Returns
the emission trace and the final stored value. -/
def updateValue {T : Type} (oldValue newValue : T) :
    List (AtomEmission T) × T :=
  let args : AtomEventArgs T := ⟨newValue, oldValue⟩
  ([⟨.beforeChange, args, oldValue⟩, ⟨.change, args, newValue⟩], newValue)

/-- `Atom.set value(newValue)`: return without storing or emitting when
the new value is equal to the current one under the cell's equality
policy `eqb`, otherwise run `updateValue`. -/
def setValue {T : Type} (eqb : T → T → Bool) (current newValue : T) :
    List (AtomEmission T) × T :=
  if eqb current newValue then ([], current)
  else updateValue current newValue

/-- JavaScript numbers as atom values: IEEE-754 `NaN` plus ordinary
numbers (integral values suffice for these claims). -/
inductive JsNumber where
  | nan
  | num (n : Int)
deriving DecidableEq, Repr

/-- JavaScript `===` on numbers: IEEE-754 comparison, under which two
`NaN` comparands are never equal. -/
def jsStrictEqNum : JsNumber → JsNumber → Bool
  | .num a, .num b => a == b
  | _, _ => false

/-! ## Serialized data and the container tree

`AtomContainer.toObject` produces a plain JSON-like object; atom values
and serialized snapshots are such data. A container instance is a value
holding its enumerable `Atom` / `AtomContainer` fields in insertion
order (`Object.entries` order, which governs serialization key order),
its options, its history stack and cursor, and its
`InitValidationHelper` flags. -/

/-- JavaScript primitive values (numbers split into `NaN` and ordinary
numbers; integral values suffice for these claims). -/
inductive JsPrim where
  | null
  | bool (b : Bool)
  | nan
  | num (n : Int)
  | str (s : String)
deriving DecidableEq, Repr

/-- Plain JSON-like data: a primitive or an object with insertion-ordered
fields. -/
inductive DataObj where
  | prim (p : JsPrim)
  | obj (fields : List (String × DataObj))

mutual

def decEqData : (a b : DataObj) → Decidable (a = b)
  | .prim p, .prim q =>
      if h : p = q then .isTrue (by rw [h]) else .isFalse (by simp [h])
  | .prim _, .obj _ => .isFalse (by simp)
  | .obj _, .prim _ => .isFalse (by simp)
  | .obj fs, .obj gs =>
      match decEqDataFields fs gs with
      | .isTrue h => .isTrue (by rw [h])
      | .isFalse h => .isFalse (by simp [h])

def decEqDataFields :
    (a b : List (String × DataObj)) → Decidable (a = b)
  | [], [] => .isTrue rfl
  | [], _ :: _ => .isFalse (by simp)
  | _ :: _, [] => .isFalse (by simp)
  | (k, v) :: rest, (k', v') :: rest' =>
      if hk : k = k' then
        match decEqData v v', decEqDataFields rest rest' with
        | .isTrue hv, .isTrue hr => .isTrue (by rw [hk, hv, hr])
        | .isFalse hv, _ => .isFalse (by simp [hv])
        | _, .isFalse hr => .isFalse (by simp [hr])
      else .isFalse (by simp [hk])

end

instance : DecidableEq DataObj := decEqData

/-- `Object.entries` on data: the fields of an object, `[]` on a
primitive. -/
def entriesOf : DataObj → List (String × DataObj)
  | .obj fields => fields
  | .prim _ => []

/-- JavaScript `===` on primitives: `NaN` is never equal to anything,
including itself. -/
def jsStrictEqPrim : JsPrim → JsPrim → Bool
  | .null, .null => true
  | .bool a, .bool b => a == b
  | .num a, .num b => a == b
  | .str a, .str b => a == b
  | _, _ => false

/-- JavaScript `===` on data values. Primitives compare by value;
objects compare by reference, which a value model cannot track, so an
object comparison is modelled as unequal (fresh-literal case). The only
effect of this choice is on whether the gate in `Atom.set value` fires:
when the references coincide the two sides are also equal as data, so
the stored value after a gated assignment is the same either way (see
`setAtomValue_eq`). -/
def jsStrictEqData : DataObj → DataObj → Bool
  | .prim p, .prim q => jsStrictEqPrim p q
  | _, _ => false

/-- The equality-gated assignment `member.value = value` performed by
`fromObject` on an atom member: keep the stored value when the gate
blocks, store the new one otherwise. -/
def setAtomValue (cur newVal : DataObj) : DataObj :=
  if jsStrictEqData cur newVal then cur else newVal

/-- A console warning from `InitValidationHelper.validateInitialized`:
it names the concrete container type and the offending operation. -/
structure Warning where
  containerName : String
  operation : String
deriving DecidableEq, Repr

/-- The scalar state of one container instance: constructor options,
history stack and cursor, `InitValidationHelper` flags
(`_isInitialized`, `_hasWarned`, `_containerName`), and whether
`initHistory` has attached `_historyListener` to the own `addHistory`
event (in the source this is the `listeners("addHistory").includes(
this._historyListener)` check). -/
structure CMeta where
  name : String
  skipSerialization : Bool
  useHistory : Bool
  history : List DataObj
  historyIndex : Int
  isInitialized : Bool
  hasWarned : Bool
  historyAttached : Bool
deriving DecidableEq

/-- A member discovered by `Object.entries(this)`: an atom (with its
`skipSerialization` flag and current value) or a nested container. -/
inductive Member where
  | atom (skip : Bool) (value : DataObj)
  | container (meta : CMeta) (members : List (String × Member))

mutual

def decEqMember : (a b : Member) → Decidable (a = b)
  | .atom s v, .atom s' v' =>
      if h : s = s' ∧ v = v' then .isTrue (by rw [h.1, h.2])
      else .isFalse (by simp; intro h1 h2; exact h ⟨h1, h2⟩)
  | .atom _ _, .container _ _ => .isFalse (by simp)
  | .container _ _, .atom _ _ => .isFalse (by simp)
  | .container m ms, .container m' ms' =>
      if hm : m = m' then
        match decEqMemberFields ms ms' with
        | .isTrue h => .isTrue (by rw [hm, h])
        | .isFalse h => .isFalse (by simp [h])
      else .isFalse (by simp [hm])

def decEqMemberFields :
    (a b : List (String × Member)) → Decidable (a = b)
  | [], [] => .isTrue rfl
  | [], _ :: _ => .isFalse (by simp)
  | _ :: _, [] => .isFalse (by simp)
  | (k, v) :: rest, (k', v') :: rest' =>
      if hk : k = k' then
        match decEqMember v v', decEqMemberFields rest rest' with
        | .isTrue hv, .isTrue hr => .isTrue (by rw [hk, hv, hr])
        | .isFalse hv, _ => .isFalse (by simp [hv])
        | _, .isFalse hr => .isFalse (by simp [hr])
      else .isFalse (by simp [hk])

end

instance : DecidableEq Member := decEqMember

/-- `InitValidationHelper.validateInitialized(operationName)`: warn once
per instance when not initialized, then mark warned; otherwise do
nothing. The operation always proceeds afterwards. -/
def validateInitialized (m : CMeta) (operation : String) :
    CMeta × List Warning :=
  if !m.isInitialized && !m.hasWarned then
    ({ m with hasWarned := true }, [⟨m.name, operation⟩])
  else (m, [])

/-- `AtomContainer.toObject` body: walk the members in insertion order;
serialize a non-skip container recursively, copy a non-skip atom's raw
value, omit everything marked `skipSerialization` entirely. -/
def serializeFields : List (String × Member) → List (String × DataObj)
  | [] => []
  | (key, .atom skip v) :: rest =>
      if skip then serializeFields rest
      else (key, v) :: serializeFields rest
  | (key, .container meta ms) :: rest =>
      if meta.skipSerialization then serializeFields rest
      else (key, .obj (serializeFields ms)) :: serializeFields rest

/-- `AtomContainer.toObject()`. -/
def toObject (members : List (String × Member)) : DataObj :=
  .obj (serializeFields members)

/-- `this[key]`: the member named `key` (first binding; a JavaScript
object cannot hold two fields of the same name). -/
def lookupFirst : List (String × Member) → String → Option Member
  | [], _ => none
  | (k, m) :: rest, key =>
      if k = key then some m else lookupFirst rest key

/-- Assignment to `this[key]`'s member: replace the first binding named
`key`. -/
def replaceFirst :
    List (String × Member) → String → Member → List (String × Member)
  | [], _, _ => []
  | (k, m) :: rest, key, m' =>
      if k = key then (k, m') :: rest
      else (k, m) :: replaceFirst rest key m'

/-- `Object.entries` of a value is structurally smaller than the value;
this drives the termination of `fromObject`. -/
theorem sizeOf_entriesOf (obj : DataObj) :
    sizeOf (entriesOf obj) < sizeOf obj := by
  cases obj with
  | prim p => cases p <;> simp [entriesOf]
  | obj fs => simp [entriesOf]

mutual

/-- `AtomContainer.fromObject(obj)`: consult the initialization guard,
then for each `[key, value]` of `Object.entries(obj)` in order, update
the member named `key` — recursively for a nested container, through the
equality-gated setter for an atom; keys without a matching member are
silently ignored. Returns the new meta state (warned flag), the new
members, and the warnings emitted (own first, then the ones from nested
containers in processing order). -/
def fromObject (meta : CMeta) (members : List (String × Member))
    (obj : DataObj) : CMeta × List (String × Member) × List Warning :=
  let v := validateInitialized meta "fromObject"
  let r := fromObjectEntries members (entriesOf obj)
  (v.1, r.1, v.2 ++ r.2)
termination_by sizeOf obj
decreasing_by
  all_goals simp_wf
  all_goals exact sizeOf_entriesOf obj

/-- The `for (const [key, value] of Object.entries(obj))` loop body of
`fromObject`, threading the updated members left to right. -/
def fromObjectEntries (members : List (String × Member))
    (es : List (String × DataObj)) :
    List (String × Member) × List Warning :=
  match es with
  | [] => (members, [])
  | (key, value) :: rest =>
      match lookupFirst members key with
      | some (.container cmeta cms) =>
          let r := fromObject cmeta cms value
          let r2 := fromObjectEntries
            (replaceFirst members key (.container r.1 r.2.1)) rest
          (r2.1, r.2.2 ++ r2.2)
      | some (.atom skip v) =>
          fromObjectEntries
            (replaceFirst members key (.atom skip (setAtomValue v value)))
            rest
      | none => fromObjectEntries members rest
termination_by sizeOf es
decreasing_by
  all_goals simp_wf
  all_goals omega

end

/-- A container instance: its scalar state plus its insertion-ordered
members. -/
structure Container where
  meta : CMeta
  members : List (String × Member)
deriving DecidableEq

namespace Container

/-- `AtomContainer.toObject()` on an instance. -/
def toObject (c : Container) : DataObj := StateAtoms.toObject c.members

/-- `AtomContainer.fromObject(obj)` on an instance: new state plus the
warnings emitted. -/
def fromObject (c : Container) (obj : DataObj) :
    Container × List Warning :=
  let r := StateAtoms.fromObject c.meta c.members obj
  (⟨r.1, r.2.1⟩, r.2.2)

/-- `Array.prototype.splice(start)` deletion prefix: the elements kept
in place, i.e. everything before the actual start index (negative
`start` counts from the end). -/
def spliceKeep {α : Type} (l : List α) (start : Int) : List α :=
  let s : Int := if start < 0 then max ((l.length : Int) + start) 0
                 else min start (l.length : Int)
  l.take s.toNat

/-- `AtomContainer.addHistory()`: validate, return when history is
disabled, otherwise advance the cursor, truncate the stack at the new
cursor (`splice`), and push a fresh `toObject()` snapshot. -/
def addHistory (c : Container) : Container × List Warning :=
  let v := validateInitialized c.meta "addHistory"
  if !v.1.useHistory then (⟨v.1, c.members⟩, v.2)
  else
    let idx := v.1.historyIndex + 1
    let hist := spliceKeep v.1.history idx ++ [StateAtoms.toObject c.members]
    (⟨{ v.1 with historyIndex := idx, history := hist }, c.members⟩, v.2)

/-- `AtomContainer.undo()`: validate, return when history is disabled or
the cursor is at or before the first entry, otherwise decrement the
cursor and restore the snapshot there via `fromObject`. (The indexing
default is irrelevant: the guard plus the cursor invariant keep the
access in range.) -/
def undo (c : Container) : Container × List Warning :=
  let v := validateInitialized c.meta "undo"
  if !v.1.useHistory || v.1.historyIndex ≤ 0 then (⟨v.1, c.members⟩, v.2)
  else
    let idx := v.1.historyIndex - 1
    let snap := v.1.history.getD idx.toNat (.obj [])
    let r := StateAtoms.fromObject { v.1 with historyIndex := idx }
      c.members snap
    (⟨r.1, r.2.1⟩, v.2 ++ r.2.2)

/-- `AtomContainer.redo()`: validate, return when history is disabled or
the cursor is at or beyond the last entry, otherwise increment the
cursor and restore the snapshot there via `fromObject`. -/
def redo (c : Container) : Container × List Warning :=
  let v := validateInitialized c.meta "redo"
  if !v.1.useHistory || v.1.historyIndex ≥ (v.1.history.length : Int) - 1
  then (⟨v.1, c.members⟩, v.2)
  else
    let idx := v.1.historyIndex + 1
    let snap := v.1.history.getD idx.toNat (.obj [])
    let r := StateAtoms.fromObject { v.1 with historyIndex := idx }
      c.members snap
    (⟨r.1, r.2.1⟩, v.2 ++ r.2.2)

/-- `AtomContainer.load(obj)`: validate, clear the history stack and
cursor when history is enabled, apply `fromObject`, then record one
checkpoint via `addHistory` (both called as the public methods, so each
consults the guard again). -/
def load (c : Container) (obj : DataObj) : Container × List Warning :=
  let v := validateInitialized c.meta "load"
  let m1 := if v.1.useHistory
            then { v.1 with history := [], historyIndex := -1 }
            else v.1
  let r := StateAtoms.fromObject m1 c.members obj
  let r2 := addHistory ⟨r.1, r.2.1⟩
  (r2.1, v.2 ++ r.2.2 ++ r2.2)

/-- `AtomContainer.fromJson(json)`: validate, `JSON.parse`, then
`fromObject`. The parser is the JavaScript built-in, taken here as a
parameter; a parse failure throws, is not caught, and propagates —
returned as `some error` together with the state at the throw point. -/
def fromJson (parse : String → Except String DataObj) (c : Container)
    (json : String) : Container × Option String × List Warning :=
  let v := validateInitialized c.meta "fromJson"
  match parse json with
  | .error e => (⟨v.1, c.members⟩, some e, v.2)
  | .ok obj =>
      let r := StateAtoms.fromObject v.1 c.members obj
      (⟨r.1, r.2.1⟩, none, v.2 ++ r.2.2)

/-- `AtomContainer.initHistory()`: nothing when history is disabled;
otherwise attach `_historyListener` to the own `addHistory` event and
record the initial checkpoint, but only when the listener is not
registered yet (the `listeners("addHistory").includes` check). -/
def initHistory (c : Container) : Container × List Warning :=
  if !c.meta.useHistory then (c, [])
  else if c.meta.historyAttached then (c, [])
  else addHistory ⟨{ c.meta with historyAttached := true }, c.members⟩

/-- `AtomContainer.init()`: mark the guard initialized, wire the member
listeners (`addMembers` — listener state lives in the event-dispatch
layer, not in this tree state), then `initHistory`. -/
def init (c : Container) : Container × List Warning :=
  initHistory ⟨{ c.meta with isInitialized := true }, c.members⟩

end Container

/-! ## Shapes

`fromObject` can change atom values and guard flags but never the
member structure of a tree: the member names, their order, the
atom/container split and the `skipSerialization` flags are fixed by the
subclass definition. `Shape` captures exactly that fixed part. -/

inductive Shape where
  | atomS (skip : Bool)
  | containerS (skip : Bool) (fields : List (String × Shape))

mutual

def shapeOfMember : Member → Shape
  | .atom skip _ => .atomS skip
  | .container meta ms => .containerS meta.skipSerialization (shapeOfFields ms)

def shapeOfFields : List (String × Member) → List (String × Shape)
  | [] => []
  | (k, m) :: rest => (k, shapeOfMember m) :: shapeOfFields rest

end

/-- No duplicate keys (a JavaScript object cannot hold two fields of the
same name, so every member list arising from a real class satisfies
this). -/
def noDupKeys : List String → Bool
  | [] => true
  | k :: rest => !(rest.contains k) && noDupKeys rest

mutual

/-- Well-formedness of a shape: distinct member names at every level. -/
def wfShape : Shape → Bool
  | .atomS _ => true
  | .containerS _ fields =>
      noDupKeys (fields.map Prod.fst) && wfShapeList fields

def wfShapeList : List (String × Shape) → Bool
  | [] => true
  | (_, sh) :: rest => wfShape sh && wfShapeList rest

end

/-- Well-formedness of a member list: its shape has distinct member
names at every level. -/
def wfMembers (ms : List (String × Member)) : Bool :=
  wfShape (.containerS false (shapeOfFields ms))

/-- The `skipSerialization` flag of a member. -/
def memberSkip : Member → Bool
  | .atom skip _ => skip
  | .container meta _ => meta.skipSerialization

/-! ## Operation sequences (for the history and guard claims) -/

/-- One history/undo run step of claim C4: mutate the tree state
(`fromObject`) and record a checkpoint (`addHistory`). -/
def histStep (c : Container) (x : DataObj) : Container :=
  (((c.fromObject x).1).addHistory).1

/-- Run a list of mutations, each followed by `addHistory`. -/
def runHist (c : Container) : List DataObj → Container
  | [] => c
  | x :: xs => runHist (histStep c x) xs

/-- `undo()` as a state transformer (warnings dropped). -/
def applyUndo (c : Container) : Container := (c.undo).1

/-- `redo()` as a state transformer (warnings dropped). -/
def applyRedo (c : Container) : Container := (c.redo).1

/-- The checkpoint snapshots pushed by a run of `histStep`s, in order. -/
def snapshotsOf (c : Container) : List DataObj → List DataObj
  | [] => []
  | x :: xs => toObject (histStep c x).members :: snapshotsOf (histStep c x) xs

/-- State of a history-enabled container at a checkpoint boundary: set
up, shape `sh`, cursor at the top of the stack, and every snapshot on
the stack is the serialization of some tree of shape `sh`. -/
def RunP (sh : List (String × Shape)) (c : Container) : Prop :=
  c.meta.useHistory = true ∧
  c.meta.isInitialized = true ∧
  shapeOfFields c.members = sh ∧
  c.meta.historyIndex = (c.meta.history.length : Int) - 1 ∧
  1 ≤ c.meta.history.length ∧
  c.meta.history.getLast? = some (toObject c.members) ∧
  ∀ d ∈ c.meta.history, ∃ xs, shapeOfFields xs = sh ∧ d = toObject xs

/-- State of a history-enabled container during undo/redo traversal:
the cursor is in range and points at the snapshot of the current
state. -/
def UndoInv (sh : List (String × Shape)) (c : Container) : Prop :=
  c.meta.useHistory = true ∧
  c.meta.isInitialized = true ∧
  shapeOfFields c.members = sh ∧
  0 ≤ c.meta.historyIndex ∧
  c.meta.historyIndex ≤ (c.meta.history.length : Int) - 1 ∧
  c.meta.history[c.meta.historyIndex.toNat]?
    = some (toObject c.members) ∧
  ∀ d ∈ c.meta.history, ∃ xs, shapeOfFields xs = sh ∧ d = toObject xs

/-- The public operations that consult the initialization guard,
plus `init` (`setup`), which marks it initialized. -/
inductive GuardedOp where
  | fromObjectOp (obj : DataObj)
  | fromJsonOp (json : String)
  | addHistoryOp
  | undoOp
  | redoOp
  | loadOp (obj : DataObj)
  | initOp

/-- Whether the operation is one of the six guarded public operations
(`init` is the setup step, not a guarded operation). -/
def GuardedOp.isGuarded : GuardedOp → Bool
  | .initOp => false
  | _ => true

/-- The operation name the guard reports for each guarded operation. -/
def GuardedOp.guardName : GuardedOp → String
  | .fromObjectOp _ => "fromObject"
  | .fromJsonOp _ => "fromJson"
  | .addHistoryOp => "addHistory"
  | .undoOp => "undo"
  | .redoOp => "redo"
  | .loadOp _ => "load"
  | .initOp => ""

/-- Apply one operation to a container. -/
def stepOp (parse : String → Except String DataObj) (c : Container) :
    GuardedOp → Container × List Warning
  | .fromObjectOp obj => c.fromObject obj
  | .fromJsonOp json =>
      let r := Container.fromJson parse c json
      (r.1, r.2.2)
  | .addHistoryOp => c.addHistory
  | .undoOp => c.undo
  | .redoOp => c.redo
  | .loadOp obj => c.load obj
  | .initOp => c.init

/-- Apply a sequence of operations, accumulating all warnings. -/
def runOps (parse : String → Except String DataObj) (c : Container) :
    List GuardedOp → Container × List Warning
  | [] => (c, [])
  | op :: ops =>
      let r := stepOp parse c op
      let r2 := runOps parse r.1 ops
      (r2.1, r.2 ++ r2.2)

/-- The history-cursor invariant of claim C5: the cursor lies in
`[-1, length - 1]`, `-1` denoting empty history. -/
def HistInRange (c : Container) : Prop :=
  -1 ≤ c.meta.historyIndex ∧
    c.meta.historyIndex ≤ (c.meta.history.length : Int) - 1

/-- The same container with the one-time warning already spent. An
operation "proceeds anyway" exactly when it commutes with this mask:
the warning state never influences the operation's effect. -/
def maskWarned (c : Container) : Container :=
  ⟨{ c.meta with hasWarned := true }, c.members⟩

/-! ## The InitValidationHelper state machine (claim C8)

`InitValidationHelper` is instantiated once per container instance
(`private readonly _initValidator = new InitValidationHelper(...)`), so
"per instance" properties are exactly properties of one helper state.
`resetWarningState()` is a test-only affordance and not part of the
runtime operation alphabet. -/

structure HelperState where
  isInitialized : Bool
  hasWarned : Bool
  containerName : String
deriving DecidableEq

inductive HelperOp where
  | validateOp (operation : String)
  | markInitializedOp

/-- One call on the helper: `validateInitialized(op)` warns once while
uninitialized then sets the sticky flag; `markInitialized()` records
initialization. -/
def helperStep (s : HelperState) : HelperOp → HelperState × List Warning
  | .validateOp op =>
      if !s.isInitialized && !s.hasWarned then
        ({ s with hasWarned := true }, [⟨s.containerName, op⟩])
      else (s, [])
  | .markInitializedOp => ({ s with isInitialized := true }, [])

/-- A whole call sequence on one helper instance. -/
def helperRun (s : HelperState) : List HelperOp → HelperState × List Warning
  | [] => (s, [])
  | op :: ops =>
      let r := helperStep s op
      let r2 := helperRun r.1 ops
      (r2.1, r.2 ++ r2.2)

/-! ## Listener wiring of `setup()` (claim C7)

The listener-registry side of `init()`: `addMembers` registers the
container's three forwarding listeners on every member, each guarded by
the `listeners(event).includes(...)` check, and `initHistory` registers
`_historyListener` on the container's own `addHistory` event and pushes
the initial checkpoint, both only when the listener is absent. -/

/-- `value.on(event, l)` guarded by `listeners(event).includes(l)`. -/
def addIfAbsent (l : List Listener) (x : Listener) : List Listener :=
  if x ∈ l then l else l ++ [x]

/-- `AtomContainer.add(value)`: register the three forwarding listeners
on a member, each only when absent. -/
def registerForwarders (s : ListenerSet) : ListenerSet :=
  ⟨addIfAbsent s.beforeChange .forward,
   addIfAbsent s.change .forward,
   addIfAbsent s.addHistory .forward⟩

/-- The listener-registry state of one container: the registries of its
members, its own registry, its options, the number of checkpoints it has
recorded, and the guard's initialized flag. -/
structure Wiring where
  memberListeners : List ListenerSet
  own : ListenerSet
  useHistory : Bool
  checkpoints : Nat
  initialized : Bool
deriving DecidableEq

/-- `initHistory()` on the registry state: when history is enabled and
`_historyListener` is not yet registered on the own `addHistory` event,
register it and record the initial checkpoint (`addHistory()`). -/
def Wiring.initHistory (w : Wiring) : Wiring :=
  if !w.useHistory then w
  else if Listener.historyListener ∈ w.own.addHistory then w
  else { w with
    own := { w.own with addHistory := w.own.addHistory ++ [.historyListener] }
    checkpoints := w.checkpoints + 1 }

/-- `init()` on the registry state: mark initialized, `addMembers`
(register forwarders on every member), then `initHistory`. -/
def Wiring.init (w : Wiring) : Wiring :=
  Wiring.initHistory
    { w with
      initialized := true
      memberListeners := w.memberListeners.map registerForwarders }

/-- A freshly constructed container with two atom members and history
enabled, before its `init()` runs. -/
def freshWiring : Wiring :=
  ⟨[ListenerSet.empty, ListenerSet.empty], ListenerSet.empty, true, 0, false⟩

/-! ## Theorems -/

/-- The guard call only ever touches the `hasWarned` flag of the meta
state. -/
theorem validateInitialized_fst (m : CMeta) (op : String) :
    (validateInitialized m op).1
      = { m with hasWarned := m.hasWarned || !m.isInitialized } := by
  obtain ⟨n, sk, uh, h, hi, ii, hw, ha⟩ := m
  cases ii <;> cases hw <;> simp [validateInitialized]

/-- The guard warns exactly when uninitialized and not yet warned,
naming the container type and the operation. -/
theorem validateInitialized_snd (m : CMeta) (op : String) :
    (validateInitialized m op).2
      = if !m.isInitialized && !m.hasWarned then [⟨m.name, op⟩] else [] := by
  obtain ⟨n, sk, uh, h, hi, ii, hw, ha⟩ := m
  cases ii <;> cases hw <;> simp [validateInitialized]

theorem memberSkip_atom (skip : Bool) (v : DataObj) :
    memberSkip (.atom skip v) = skip := rfl

theorem memberSkip_container (meta : CMeta) (ms : List (String × Member)) :
    memberSkip (.container meta ms) = meta.skipSerialization := rfl

/-- Members marked `skipSerialization` contribute nothing to
serialization: filtering them away first changes nothing. -/
theorem serializeFields_filter (ms : List (String × Member)) :
    serializeFields (ms.filter (fun p => !(memberSkip p.2)))
      = serializeFields ms := by
  induction ms with
  | nil => rfl
  | cons p rest ih =>
    obtain ⟨k, m⟩ := p
    cases m with
    | atom skip v =>
      cases skip <;>
        simp [List.filter_cons, memberSkip_atom, serializeFields, ih]
    | container meta cms =>
      by_cases h : meta.skipSerialization <;>
        simp [List.filter_cons, memberSkip_container, serializeFields, h, ih]

/-- The keys of a serialization are the keys of the non-skip members. -/
theorem keys_serializeFields (ms : List (String × Member)) :
    (serializeFields ms).map Prod.fst
      = (ms.filter (fun p => !(memberSkip p.2))).map Prod.fst := by
  induction ms with
  | nil => simp [serializeFields]
  | cons p rest ih =>
    obtain ⟨k, m⟩ := p
    cases m with
    | atom skip v =>
      cases skip <;>
        simp [List.filter_cons, memberSkip_atom, serializeFields, ih]
    | container meta cms =>
      by_cases h : meta.skipSerialization <;>
        simp [List.filter_cons, memberSkip_container, serializeFields, h, ih]

/-- With distinct keys, a key determines its member. -/
theorem nodupKeys_mem_unique {ms : List (String × Member)} {k : String}
    {a b : Member} (h : (ms.map Prod.fst).Nodup)
    (ha : (k, a) ∈ ms) (hb : (k, b) ∈ ms) : a = b := by
  induction ms with
  | nil => cases ha
  | cons p rest ih =>
    obtain ⟨k0, m0⟩ := p
    simp only [List.map_cons, List.nodup_cons] at h
    rcases List.mem_cons.mp ha with h1 | h1 <;>
      rcases List.mem_cons.mp hb with h2 | h2
    · cases h1; cases h2; rfl
    · cases h1
      exact absurd (List.mem_map_of_mem Prod.fst h2) h.1
    · cases h2
      exact absurd (List.mem_map_of_mem Prod.fst h1) h.1
    · exact ih h.2 h1 h2

/-- C6: a member constructed with `skipSerialization: true` is omitted
entirely from `toObject()`'s result: serialization is unchanged by
removing all skip members first (so no data of a skip subtree appears at
any depth), and a skip member's key is absent from the result. -/
theorem c6_skip_serialization_exclusion :
    (∀ ms : List (String × Member),
      serializeFields ms
        = serializeFields (ms.filter (fun p => !(memberSkip p.2)))) ∧
    (∀ (ms : List (String × Member)) (k : String) (m : Member),
      (ms.map Prod.fst).Nodup → (k, m) ∈ ms → memberSkip m = true →
      k ∉ (serializeFields ms).map Prod.fst) := by
  constructor
  · intro ms
    exact (serializeFields_filter ms).symm
  · intro ms k m hnd hmem hskip hk
    rw [keys_serializeFields] at hk
    obtain ⟨p, hp, hpk⟩ := List.mem_map.mp hk
    obtain ⟨hpmem, hpskip⟩ := List.mem_filter.mp hp
    obtain ⟨k', m'⟩ := p
    simp only at hpk
    subst hpk
    have hmm : m = m' := nodupKeys_mem_unique hnd hmem hpmem
    subst hmm
    simp [hskip] at hpskip

/-- Witness for C6: a container with a skip atom `a` and a plain atom
`b` serializes without the key `a`. -/
theorem c6_skip_serialization_exclusion_witness :
    "a" ∉ (serializeFields
      [("a", Member.atom true (.prim (.num 1))),
       ("b", Member.atom false (.prim (.num 2)))]).map Prod.fst :=
  c6_skip_serialization_exclusion.2
    [("a", Member.atom true (.prim (.num 1))),
     ("b", Member.atom false (.prim (.num 2)))]
    "a" (Member.atom true (.prim (.num 1))) (by decide) (by decide)
    (by decide)

/-- The gate only blocks when the two sides are equal as data, so the
value stored after `member.value = value` is always `value`. -/
theorem setAtomValue_eq (cur newVal : DataObj) :
    setAtomValue cur newVal = newVal := by
  unfold setAtomValue
  split
  · rename_i h
    cases cur <;> cases newVal <;> simp [jsStrictEqData] at h ⊢
    rename_i p q
    cases p <;> cases q <;> simp_all [jsStrictEqPrim]
  · rfl

/-- Registrations targeting different nodes touch different fields, and
two registrations on the same node and event append the same listener
shape, so any two registrations commute. -/
theorem applyReg_comm (c : Chain3) (p q : Nat × EventName) :
    applyReg (applyReg c p) q = applyReg (applyReg c q) p := by
  obtain ⟨lp, ep⟩ := p
  obtain ⟨lq, eq⟩ := q
  match lp, lq with
  | 0, 0 | 0, 1 | 0, 2 | 1, 0 | 1, 1 | 1, 2 | 2, 0 | 2, 1 | 2, 2 =>
    cases ep <;> cases eq <;> rfl
  | 0, _ + 3 | 1, _ + 3 | 2, _ + 3 =>
    cases ep <;> cases eq <;> rfl
  | _ + 3, 0 | _ + 3, 1 | _ + 3, 2 | _ + 3, _ + 3 =>
    cases ep <;> cases eq <;> rfl

/-- C1: for a change on a doubly-nested leaf cell (root container 0 →
intermediate container 1 → leaf atom 2), with one listener for each
event at each of the three levels registered in any order across the
nodes, the observed invocation order is exactly `root.beforeChange,
intermediate.beforeChange, leaf.beforeChange, root.change,
intermediate.change, leaf.change`. -/
theorem c1_nested_emission_order (rs : List (Nat × EventName))
    (h : rs.Perm canonicalRegs) :
    updateValueEmissions (chainOf (applyRegs Chain3.constructed rs)) =
      [(0, .beforeChange), (1, .beforeChange), (2, .beforeChange),
       (0, .change), (1, .change), (2, .change)] := by
  have h2 : applyRegs Chain3.constructed rs
      = applyRegs Chain3.constructed canonicalRegs := by
    simpa [applyRegs] using
      h.foldl_eq' (fun x _ y _ z => applyReg_comm z x y) Chain3.constructed
  rw [h2]
  decide

/-- Witness for C1 at a scrambled registration order: listeners are
registered child-first and interleaved, yet the emission order is the
root-first one. -/
theorem c1_nested_emission_order_witness :
    ([((2 : Nat), EventName.change), (1, .beforeChange), (0, .change),
      (2, .beforeChange), (0, .beforeChange), (1, .change)]).Perm
        canonicalRegs ∧
    updateValueEmissions (chainOf (applyRegs Chain3.constructed
      [((2 : Nat), EventName.change), (1, .beforeChange), (0, .change),
       (2, .beforeChange), (0, .beforeChange), (1, .change)])) =
      [(0, .beforeChange), (1, .beforeChange), (2, .beforeChange),
       (0, .change), (1, .change), (2, .change)] :=
  ⟨by decide,
   c1_nested_emission_order
     [((2 : Nat), EventName.change), (1, .beforeChange), (0, .change),
      (2, .beforeChange), (0, .beforeChange), (1, .change)] (by decide)⟩

/-- C2: setting an atom to a policy-equal value fires zero events and
leaves the value unchanged; setting a non-equal value fires exactly one
`beforeChange` then one `change`, both carrying `valueFrom` = old value
and `value` = new value, with `.value` reading as the old value during
`beforeChange` and the new value during `change`; and since `NaN` is not
`===`-equal to itself, setting a `NaN`-valued atom to `NaN` again fires
both events. -/
theorem c2_set_value_semantics {T : Type} (eqb : T → T → Bool)
    (cur x : T) :
    (eqb cur x = true → setValue eqb cur x = ([], cur)) ∧
    (eqb cur x = false →
      (setValue eqb cur x).2 = x ∧
      (setValue eqb cur x).1.map AtomEmission.name
        = [.beforeChange, .change] ∧
      ∀ em ∈ (setValue eqb cur x).1,
        em.args.valueFrom = cur ∧ em.args.value = x ∧
        (em.name = .beforeChange → em.observedValue = cur) ∧
        (em.name = .change → em.observedValue = x)) ∧
    ((setValue jsStrictEqNum JsNumber.nan JsNumber.nan).1.map
        AtomEmission.name = [.beforeChange, .change]) := by
  refine ⟨fun h => ?_, fun h => ?_, by decide⟩
  · simp [setValue, h]
  · refine ⟨by simp [setValue, h, updateValue], by simp [setValue, h, updateValue], ?_⟩
    intro em hem
    simp [setValue, h, updateValue] at hem
    rcases hem with rfl | rfl <;> simp

/-- Witness for C2 on JavaScript numbers: an equal write (1 to 1) is
silent, a changing write (1 to 2) produces the two-event trace with the
stated payloads and observable values. -/
theorem c2_set_value_semantics_witness :
    (setValue jsStrictEqNum (.num 1) (.num 1) = ([], .num 1)) ∧
    ((setValue jsStrictEqNum (.num 1) (.num 2)).2 = .num 2) ∧
    (∀ em ∈ (setValue jsStrictEqNum (.num 1) (.num 2)).1,
      em.args.valueFrom = .num 1 ∧ em.args.value = .num 2 ∧
      (em.name = .beforeChange → em.observedValue = .num 1) ∧
      (em.name = .change → em.observedValue = .num 2)) :=
  ⟨(c2_set_value_semantics jsStrictEqNum (.num 1) (.num 1)).1 (by decide),
   ((c2_set_value_semantics jsStrictEqNum (.num 1) (.num 2)).2.1
      (by decide)).1,
   ((c2_set_value_semantics jsStrictEqNum (.num 1) (.num 2)).2.1
      (by decide)).2.2⟩


/-- The kept prefix of `splice(start)` has length `start` when `start`
is in range. -/
theorem length_spliceKeep {α : Type} (l : List α) (start : Int)
    (h0 : 0 ≤ start) (h1 : start ≤ (l.length : Int)) :
    (Container.spliceKeep l start).length = start.toNat := by
  unfold Container.spliceKeep
  rw [if_neg (by omega)]
  simp only [List.length_take]
  omega

/-- `addHistory` keeps the cursor in `[-1, length - 1]`. -/
theorem addHistory_histInRange (c : Container) (h : HistInRange c) :
    HistInRange (c.addHistory).1 := by
  obtain ⟨⟨n, sk, uh, hist, hi, ii, hw, ha⟩, mems⟩ := c
  simp only [HistInRange] at h ⊢
  obtain ⟨h1, h2⟩ := h
  cases uh <;> cases ii <;> cases hw <;>
    simp_all [Container.addHistory, validateInitialized,
      length_spliceKeep hist (hi + 1) (by omega) (by omega)] <;>
    omega

/-- Every operation keeps the cursor in `[-1, length - 1]`. -/
theorem stepOp_histInRange (parse : String → Except String DataObj)
    (c : Container) (op : GuardedOp) (h : HistInRange c) :
    HistInRange (stepOp parse c op).1 := by
  cases op with
  | addHistoryOp => exact addHistory_histInRange c h
  | fromObjectOp obj =>
    obtain ⟨⟨n, sk, uh, hist, hi, ii, hw, ha⟩, mems⟩ := c
    simp only [HistInRange] at h ⊢
    obtain ⟨h1, h2⟩ := h
    cases ii <;> cases hw <;>
      simp_all [stepOp, Container.fromObject, fromObject,
        validateInitialized]
  | fromJsonOp json =>
    obtain ⟨⟨n, sk, uh, hist, hi, ii, hw, ha⟩, mems⟩ := c
    simp only [HistInRange] at h ⊢
    obtain ⟨h1, h2⟩ := h
    simp only [stepOp, Container.fromJson]
    cases parse json with
    | error e =>
      cases ii <;> cases hw <;> simp_all [validateInitialized]
    | ok obj =>
      cases ii <;> cases hw <;>
        simp_all [fromObject, validateInitialized]
  | undoOp =>
    obtain ⟨⟨n, sk, uh, hist, hi, ii, hw, ha⟩, mems⟩ := c
    simp only [HistInRange] at h ⊢
    obtain ⟨h1, h2⟩ := h
    cases uh <;> cases ii <;> cases hw <;>
      simp_all [stepOp, Container.undo, fromObject, validateInitialized] <;>
      split_ifs <;> simp_all <;> omega
  | redoOp =>
    obtain ⟨⟨n, sk, uh, hist, hi, ii, hw, ha⟩, mems⟩ := c
    simp only [HistInRange] at h ⊢
    obtain ⟨h1, h2⟩ := h
    cases uh <;> cases ii <;> cases hw <;>
      simp_all [stepOp, Container.redo, fromObject, validateInitialized] <;>
      split_ifs <;> simp_all <;> omega
  | loadOp obj =>
    obtain ⟨⟨n, sk, uh, hist, hi, ii, hw, ha⟩, mems⟩ := c
    simp only [HistInRange] at h ⊢
    obtain ⟨h1, h2⟩ := h
    cases uh <;> cases ii <;> cases hw <;>
      simp_all [stepOp, Container.load, fromObject, validateInitialized,
        Container.addHistory, Container.spliceKeep, List.length_take]
  | initOp =>
    obtain ⟨⟨n, sk, uh, hist, hi, ii, hw, ha⟩, mems⟩ := c
    simp only [HistInRange] at h ⊢
    obtain ⟨h1, h2⟩ := h
    cases uh <;> cases ha <;>
      simp_all [stepOp, Container.init, Container.initHistory,
        Container.addHistory, validateInitialized, Container.spliceKeep,
        List.length_take]
    omega

/-- C5: the history cursor stays in `[-1, length - 1]` (`-1` = empty
history) under every sequence of `addHistory`, `undo`, `redo`, `load`,
`fromObject`, `fromJson` or `setup` calls. -/
theorem c5_cursor_always_in_range (parse : String → Except String DataObj)
    (c : Container) (ops : List GuardedOp) (h : HistInRange c) :
    HistInRange (runOps parse c ops).1 := by
  induction ops generalizing c with
  | nil => simpa [runOps] using h
  | cons op ops ih =>
    simp only [runOps]
    exact ih _ (stepOp_histInRange parse c op h)

/-- Witness for C5: a freshly constructed history-enabled container run
through setup, a checkpoint, an undo and a load keeps its cursor in
range. -/
theorem c5_cursor_always_in_range_witness :
    HistInRange (runOps (fun _ => .error "SyntaxError")
      ⟨⟨"W", false, true, [], -1, false, false, false⟩, []⟩
      [.initOp, .addHistoryOp, .undoOp, .loadOp (.obj [])]).1 :=
  c5_cursor_always_in_range (fun _ => .error "SyntaxError")
    ⟨⟨"W", false, true, [], -1, false, false, false⟩, []⟩
    [.initOp, .addHistoryOp, .undoOp, .loadOp (.obj [])]
    (by constructor <;> decide)

/-- Registering the forwarding listener is idempotent: the
`includes` check prevents a duplicate. -/
theorem addIfAbsent_idem (l : List Listener) (x : Listener) :
    addIfAbsent (addIfAbsent l x) x = addIfAbsent l x := by
  by_cases h : x ∈ l
  · simp [addIfAbsent, h]
  · simp [addIfAbsent, h]

/-- `AtomContainer.add` is idempotent on a member registry. -/
theorem registerForwarders_idem (s : ListenerSet) :
    registerForwarders (registerForwarders s) = registerForwarders s := by
  simp [registerForwarders, addIfAbsent_idem]

/-- `addMembers` is idempotent on the member registries. -/
theorem map_registerForwarders_idem (l : List ListenerSet) :
    (l.map registerForwarders).map registerForwarders
      = l.map registerForwarders := by
  induction l with
  | nil => rfl
  | cons s rest ih => simp [registerForwarders_idem, ih]

/-- `init()` (`setup`) is idempotent on the listener-registry state. -/
theorem wiring_init_idem (w : Wiring) :
    Wiring.init (Wiring.init w) = Wiring.init w := by
  obtain ⟨mls, own, uh, cp, ini⟩ := w
  cases uh
  · simp [Wiring.init, Wiring.initHistory, map_registerForwarders_idem,
      registerForwarders_idem]
  · by_cases hh : Listener.historyListener ∈ own.addHistory
    · simp [Wiring.init, Wiring.initHistory, hh,
        map_registerForwarders_idem, registerForwarders_idem]
    · simp [Wiring.init, Wiring.initHistory, hh,
        map_registerForwarders_idem, registerForwarders_idem]

/-- C7: `setup()` is idempotent — three calls leave the same listener
state as one, a member mutation produces exactly one forwarded `change`
notification at the container (a container-level listener fires once per
member `change`), and a history-enabled container records exactly one
initial checkpoint across the three `setup()` calls. -/
theorem c7_setup_idempotent :
    (∀ w : Wiring, Wiring.init (Wiring.init w) = Wiring.init w) ∧
    (∀ ls ∈ (Wiring.init (Wiring.init (Wiring.init
        freshWiring))).memberListeners,
      emitOn [(1, ls),
        (0, (Wiring.init (Wiring.init (Wiring.init
          freshWiring))).own.onEvent .change (.user 7))] .change
        = [(0, .change)]) ∧
    (Wiring.init (Wiring.init (Wiring.init freshWiring))).checkpoints
      = 1 := by
  refine ⟨wiring_init_idem, by decide, by decide⟩

/-- Witness for C7: the registry of the first member after the triple
`setup()` carries exactly one forwarding listener, so its `change`
reaches the container-level listener exactly once. -/
theorem c7_setup_idempotent_witness :
    emitOn [(1, (⟨[.forward], [.forward], [.forward]⟩ : ListenerSet)),
      (0, (Wiring.init (Wiring.init (Wiring.init
        freshWiring))).own.onEvent .change (.user 7))] .change
      = [(0, .change)] :=
  c7_setup_idempotent.2.1 ⟨[.forward], [.forward], [.forward]⟩ (by decide)

/-- A warned helper never warns again and stays warned. -/
theorem helperStep_warned (s : HelperState) (op : HelperOp)
    (h : s.hasWarned = true) :
    (helperStep s op).2 = [] ∧ (helperStep s op).1.hasWarned = true := by
  cases op <;> simp [helperStep, h]

/-- A warned helper emits no warning over any operation sequence. -/
theorem helperRun_warned (s : HelperState) (ops : List HelperOp)
    (h : s.hasWarned = true) : (helperRun s ops).2 = [] := by
  induction ops generalizing s with
  | nil => rfl
  | cons op ops ih =>
    obtain ⟨he, hw⟩ := helperStep_warned s op h
    simp [helperRun, he, ih _ hw]

/-- One helper instance emits at most one warning, ever. -/
theorem helperRun_length_le_one (s : HelperState) (ops : List HelperOp) :
    (helperRun s ops).2.length ≤ 1 := by
  induction ops generalizing s with
  | nil => simp [helperRun]
  | cons op ops ih =>
    cases op with
    | markInitializedOp => simpa [helperRun, helperStep] using ih _
    | validateOp o =>
      by_cases hc : (!s.isInitialized && !s.hasWarned) = true
      · simp [helperRun, helperStep, hc,
          helperRun_warned { s with hasWarned := true } ops rfl]
      · simpa [helperRun, helperStep, hc] using ih _
/-- Every guarded operation consults the guard first: on a
never-set-up, never-warned instance its warning list starts with the
warning naming the concrete type and the operation. -/
theorem stepOp_consults_guard (parse : String → Except String DataObj)
    (c : Container) (op : GuardedOp) (hg : op.isGuarded = true)
    (hi : c.meta.isInitialized = false) (hw : c.meta.hasWarned = false) :
    ∃ rest, (stepOp parse c op).2
      = ⟨c.meta.name, op.guardName⟩ :: rest := by
  obtain ⟨⟨n, sk, uh, hist, idx, ii, hwd, ha⟩, mems⟩ := c
  simp only at hi hw
  subst hi hw
  cases op with
  | fromObjectOp obj =>
    simp [stepOp, Container.fromObject, fromObject, validateInitialized,
      GuardedOp.guardName]
  | fromJsonOp json =>
    cases hp : parse json with
    | error e =>
      simp [stepOp, Container.fromJson, hp, validateInitialized,
        GuardedOp.guardName]
    | ok obj =>
      simp [stepOp, Container.fromJson, hp, fromObject,
        validateInitialized, GuardedOp.guardName]
  | addHistoryOp =>
    cases uh <;>
      simp [stepOp, Container.addHistory, validateInitialized,
        GuardedOp.guardName]
  | undoOp =>
    by_cases hc : (uh = false ∨ idx ≤ 0) <;>
      simp [stepOp, Container.undo, validateInitialized,
        GuardedOp.guardName, hc]
  | redoOp =>
    by_cases hc : (uh = false ∨ (hist.length : Int) ≤ idx + 1) <;>
      simp [stepOp, Container.redo, validateInitialized,
        GuardedOp.guardName, hc]
  | loadOp obj =>
    cases uh <;>
      simp [stepOp, Container.load, fromObject, Container.addHistory,
        validateInitialized, GuardedOp.guardName]
  | initOp => simp [GuardedOp.isGuarded] at hg

/-- Warnings never influence an operation's effect: every operation
commutes with spending the one-time warning, i.e. the guard is advisory
and the operation proceeds anyway. -/
theorem stepOp_mask_commute (parse : String → Except String DataObj)
    (c : Container) (op : GuardedOp) :
    (stepOp parse (maskWarned c) op).1
      = maskWarned (stepOp parse c op).1 := by
  obtain ⟨⟨n, sk, uh, hist, idx, ii, hwd, ha⟩, mems⟩ := c
  cases op with
  | fromObjectOp obj =>
    cases ii <;> cases hwd <;>
      simp [stepOp, maskWarned, Container.fromObject, fromObject,
        validateInitialized]
  | fromJsonOp json =>
    cases hp : parse json with
    | error e =>
      cases ii <;> cases hwd <;>
        simp [stepOp, maskWarned, Container.fromJson, hp,
          validateInitialized]
    | ok obj =>
      cases ii <;> cases hwd <;>
        simp [stepOp, maskWarned, Container.fromJson, hp, fromObject,
          validateInitialized]
  | addHistoryOp =>
    cases uh <;> cases ii <;> cases hwd <;>
      simp [stepOp, maskWarned, Container.addHistory, validateInitialized,
        Container.spliceKeep]
  | undoOp =>
    cases uh <;> cases ii <;> cases hwd <;>
      simp [stepOp, maskWarned, Container.undo, fromObject,
        validateInitialized] <;>
      split_ifs <;>
      simp [fromObject, validateInitialized]
  | redoOp =>
    cases uh <;> cases ii <;> cases hwd <;>
      simp [stepOp, maskWarned, Container.redo, fromObject,
        validateInitialized] <;>
      split_ifs <;>
      simp [fromObject, validateInitialized]
  | loadOp obj =>
    cases uh <;> cases ii <;> cases hwd <;>
      simp [stepOp, maskWarned, Container.load, fromObject,
        Container.addHistory, validateInitialized, Container.spliceKeep]
  | initOp =>
    cases uh <;> cases ii <;> cases hwd <;> cases ha <;>
      simp [stepOp, maskWarned, Container.init, Container.initHistory,
        Container.addHistory, validateInitialized, Container.spliceKeep]
/-- C8: on an instance whose `setup()` was never called, the guarded
operations (`fromObject`, `fromJson`, `addHistory`, `undo`, `redo`,
`load`) warn at most once per instance across all guarded calls — the
single warning names the concrete type and the first offending
operation, and once warned no further warning ever fires, even after a
later `markInitialized()` — and every operation proceeds anyway: its
effect commutes with spending the warning flag. (`InitValidationHelper`
is instantiated once per container, so helper-state properties are
per-instance properties.) -/
theorem c8_guard_warns_once_then_proceeds :
    (∀ (s : HelperState) (ops : List HelperOp),
      (helperRun s ops).2.length ≤ 1) ∧
    (∀ (s : HelperState) (ops : List HelperOp), s.hasWarned = true →
      (helperRun s ops).2 = []) ∧
    (∀ (s : HelperState) (op₁ : String) (rest : List HelperOp),
      s.isInitialized = false → s.hasWarned = false →
      (helperRun s (.validateOp op₁ :: rest)).2
        = [⟨s.containerName, op₁⟩]) ∧
    (∀ (parse : String → Except String DataObj) (c : Container)
      (op : GuardedOp), op.isGuarded = true →
      c.meta.isInitialized = false → c.meta.hasWarned = false →
      ∃ rest, (stepOp parse c op).2
        = ⟨c.meta.name, op.guardName⟩ :: rest) ∧
    (∀ (parse : String → Except String DataObj) (c : Container)
      (op : GuardedOp),
      (stepOp parse (maskWarned c) op).1
        = maskWarned (stepOp parse c op).1) := by
  refine ⟨helperRun_length_le_one, helperRun_warned, ?_,
    stepOp_consults_guard, stepOp_mask_commute⟩
  intro s op₁ rest hii hwd
  simp [helperRun, helperStep, hii, hwd, helperRun_warned]

/-- Witness for C8: an uninitialized `MyContainer` warns exactly once
for its first guarded call and never again, even after a later
`markInitialized()`; a concrete `undo` call on an uninitialized
container starts its warnings with the typed warning and proceeds. -/
theorem c8_guard_warns_once_then_proceeds_witness :
    ((helperRun ⟨false, false, "MyContainer"⟩
      [.validateOp "addHistory", .markInitializedOp, .validateOp "undo"]).2
        = [⟨"MyContainer", "addHistory"⟩]) ∧
    (∃ rest, (stepOp (fun _ => .error "SyntaxError")
      ⟨⟨"MyContainer", false, true, [], -1, false, false, false⟩, []⟩
      .undoOp).2 = ⟨"MyContainer", "undo"⟩ :: rest) :=
  ⟨c8_guard_warns_once_then_proceeds.2.2.1 ⟨false, false, "MyContainer"⟩
    "addHistory" [.markInitializedOp, .validateOp "undo"] rfl rfl,
   c8_guard_warns_once_then_proceeds.2.2.2.1
    (fun _ => .error "SyntaxError")
    ⟨⟨"MyContainer", false, true, [], -1, false, false, false⟩, []⟩
    .undoOp rfl rfl rfl⟩

/-- C9: `fromJson(json)` first parses and then applies `fromObject` to
the parse result; for a string that is not valid JSON the parse error is
not caught internally and propagates synchronously and unchanged to the
caller. -/
theorem c9_fromJson_parses_then_applies
    (parse : String → Except String DataObj) (c : Container)
    (s : String) :
    (∀ e, parse s = .error e →
      (Container.fromJson parse c s).2.1 = some e) ∧
    (∀ obj, parse s = .ok obj →
      (Container.fromJson parse c s).2.1 = none ∧
      (Container.fromJson parse c s).1
        = (Container.fromObject
            ⟨(validateInitialized c.meta "fromJson").1, c.members⟩
            obj).1) := by
  constructor
  · intro e hp
    simp [Container.fromJson, hp]
  · intro obj hp
    constructor
    · simp [Container.fromJson, hp]
    · simp [Container.fromJson, Container.fromObject, hp]

/-- Witness for C9: a failing parser's error surfaces unchanged; a
succeeding parse produces no error. -/
theorem c9_fromJson_parses_then_applies_witness :
    ((Container.fromJson (fun _ => .error "SyntaxError")
      ⟨⟨"W", false, false, [], -1, true, false, false⟩, []⟩
      "x").2.1 = some "SyntaxError") ∧
    ((Container.fromJson (fun _ => .ok (.obj []))
      ⟨⟨"W", false, false, [], -1, true, false, false⟩, []⟩
      "y").2.1 = none) :=
  ⟨(c9_fromJson_parses_then_applies (fun _ => .error "SyntaxError")
      ⟨⟨"W", false, false, [], -1, true, false, false⟩, []⟩ "x").1
    "SyntaxError" rfl,
   ((c9_fromJson_parses_then_applies (fun _ => .ok (.obj []))
      ⟨⟨"W", false, false, [], -1, true, false, false⟩, []⟩ "y").2
    (.obj []) rfl).1⟩

/-- C10: when the parse fails, `fromJson` throws before touching any
member: the members (hence every cell value), the history stack and the
cursor are exactly as before the call; only the instance's one-time
warning flag may change. -/
theorem c10_fromJson_failure_atomic
    (parse : String → Except String DataObj) (c : Container) (s : String)
    (e : String) (hp : parse s = .error e) :
    (Container.fromJson parse c s).2.1 = some e ∧
    (Container.fromJson parse c s).1.members = c.members ∧
    (Container.fromJson parse c s).1.meta.history = c.meta.history ∧
    (Container.fromJson parse c s).1.meta.historyIndex
      = c.meta.historyIndex ∧
    { (Container.fromJson parse c s).1.meta with hasWarned := false }
      = { c.meta with hasWarned := false } := by
  obtain ⟨⟨n, sk, uh, hist, idx, ii, hw, ha⟩, mems⟩ := c
  simp [Container.fromJson, hp, validateInitialized_fst]

/-- Witness for C10: a failing `fromJson` on a populated history-enabled
container leaves members, history and cursor untouched. -/
theorem c10_fromJson_failure_atomic_witness :
    (Container.fromJson (fun _ => .error "SyntaxError")
      ⟨⟨"W", false, true, [.obj []], 0, false, false, true⟩,
       [("a", Member.atom false (.prim (.num 1)))]⟩
      "not json").2.1 = some "SyntaxError" ∧
    (Container.fromJson (fun _ => .error "SyntaxError")
      ⟨⟨"W", false, true, [.obj []], 0, false, false, true⟩,
       [("a", Member.atom false (.prim (.num 1)))]⟩
      "not json").1.members = [("a", Member.atom false (.prim (.num 1)))] ∧
    (Container.fromJson (fun _ => .error "SyntaxError")
      ⟨⟨"W", false, true, [.obj []], 0, false, false, true⟩,
       [("a", Member.atom false (.prim (.num 1)))]⟩
      "not json").1.meta.history = [.obj []] ∧
    (Container.fromJson (fun _ => .error "SyntaxError")
      ⟨⟨"W", false, true, [.obj []], 0, false, false, true⟩,
       [("a", Member.atom false (.prim (.num 1)))]⟩
      "not json").1.meta.historyIndex = 0 :=
  have h := c10_fromJson_failure_atomic (fun _ => .error "SyntaxError")
    ⟨⟨"W", false, true, [.obj []], 0, false, false, true⟩,
     [("a", Member.atom false (.prim (.num 1)))]⟩
    "not json" "SyntaxError" rfl
  ⟨h.1, h.2.1, h.2.2.1, h.2.2.2.1⟩

/-- Shapes keep the member names. -/
theorem keys_shapeOfFields (ms : List (String × Member)) :
    (shapeOfFields ms).map Prod.fst = ms.map Prod.fst := by
  induction ms with
  | nil => rfl
  | cons p rest ih =>
    obtain ⟨k, m⟩ := p
    simp [shapeOfFields, ih]

/-- Only the empty member list has the empty shape. -/
theorem shapeOfFields_nil_inv {ms : List (String × Member)}
    (h : shapeOfFields ms = []) : ms = [] := by
  cases ms with
  | nil => rfl
  | cons p rest =>
    obtain ⟨k, m⟩ := p
    simp [shapeOfFields] at h

/-- A cons shape comes from a cons member list with matching head. -/
theorem shapeOfFields_cons_inv {ms : List (String × Member)}
    {k : String} {sh : Shape} {S : List (String × Shape)}
    (h : shapeOfFields ms = (k, sh) :: S) :
    ∃ m rest, ms = (k, m) :: rest ∧ shapeOfMember m = sh ∧
      shapeOfFields rest = S := by
  cases ms with
  | nil => simp [shapeOfFields] at h
  | cons p rest =>
    obtain ⟨k0, m⟩ := p
    simp only [shapeOfFields, List.cons.injEq, Prod.mk.injEq] at h
    obtain ⟨⟨rfl, hm⟩, hrest⟩ := h
    exact ⟨m, rest, rfl, hm, hrest⟩

/-- A member with atom shape is an atom with that skip flag. -/
theorem shapeOfMember_atom_inv {m : Member} {b : Bool}
    (h : shapeOfMember m = .atomS b) : ∃ v, m = .atom b v := by
  cases m with
  | atom s v =>
    simp only [shapeOfMember, Shape.atomS.injEq] at h
    exact ⟨v, by rw [h]⟩
  | container meta ms => simp [shapeOfMember] at h

/-- A member with container shape is a container with that skip flag and
that member shape. -/
theorem shapeOfMember_container_inv {m : Member} {b : Bool}
    {fs : List (String × Shape)}
    (h : shapeOfMember m = .containerS b fs) :
    ∃ meta cms, m = .container meta cms ∧
      meta.skipSerialization = b ∧ shapeOfFields cms = fs := by
  cases m with
  | atom s v => simp [shapeOfMember] at h
  | container meta cms =>
    simp only [shapeOfMember, Shape.containerS.injEq] at h
    exact ⟨meta, cms, rfl, h.1, h.2⟩

/-- Distinct keys: head key is fresh and the tail is distinct too. -/
theorem noDupKeys_cons {k : String} {ks : List String}
    (h : noDupKeys (k :: ks) = true) :
    k ∉ ks ∧ noDupKeys ks = true := by
  simp only [noDupKeys, Bool.and_eq_true, Bool.not_eq_true'] at h
  refine ⟨fun hm => ?_, h.2⟩
  have h2 := List.elem_eq_true_of_mem hm
  have h3 : ks.contains k = true := h2
  rw [h.1] at h3
  cases h3

/-- Keys of a serialization are keys of the member list. -/
theorem keys_serialize_subset {ms : List (String × Member)} {key : String}
    (h : key ∈ (serializeFields ms).map Prod.fst) :
    key ∈ ms.map Prod.fst := by
  rw [keys_serializeFields] at h
  obtain ⟨p, hp, hk⟩ := List.mem_map.mp h
  rw [← hk]
  exact List.mem_map_of_mem _ (List.mem_filter.mp hp).1

/-- Entries whose keys avoid `k` pass over the member named `k`
untouched. -/
theorem fromObjectEntries_passOver (k : String) (m : Member)
    (ms : List (String × Member)) (es : List (String × DataObj))
    (h : ∀ e ∈ es, e.1 ≠ k) :
    fromObjectEntries ((k, m) :: ms) es
      = ((k, m) :: (fromObjectEntries ms es).1,
         (fromObjectEntries ms es).2) := by
  induction es generalizing ms with
  | nil => simp [fromObjectEntries]
  | cons e rest ih =>
    obtain ⟨ke, ve⟩ := e
    have hne : k ≠ ke := fun hh => h (ke, ve) (by simp) hh.symm
    have htail : ∀ e ∈ rest, e.1 ≠ k := fun e he => h e (by simp [he])
    cases hl : lookupFirst ms ke with
    | none =>
      simp [fromObjectEntries, lookupFirst, hne, hl, ih ms htail]
    | some mm =>
      cases mm with
      | atom skip v =>
        simp [fromObjectEntries, lookupFirst, hne, hl, replaceFirst,
          ih _ htail]
      | container cme cms =>
        simp [fromObjectEntries, lookupFirst, hne, hl, replaceFirst,
          ih _ htail]
/-- Round-trip: applying `fromObject` entries produced by serializing a
same-shaped tree reproduces that tree's serialization. The distinct-key
hypothesis mirrors the fact that a JavaScript object cannot hold two
fields of one name. -/
theorem roundtrip_entries_aux (n : Nat) :
    ∀ (ms ms' : List (String × Member)), sizeOf ms' ≤ n →
    shapeOfFields ms = shapeOfFields ms' →
    noDupKeys (ms.map Prod.fst) = true →
    wfShapeList (shapeOfFields ms) = true →
    serializeFields (fromObjectEntries ms (serializeFields ms')).1
      = serializeFields ms' := by
  induction n using Nat.strong_induction_on with
  | _ n ih =>
  intro ms ms' hn hsh hnd hwf
  cases ms' with
  | nil =>
    have hm : ms = [] :=
      shapeOfFields_nil_inv (by simpa [shapeOfFields] using hsh)
    subst hm
    simp [fromObjectEntries, serializeFields]
  | cons p' rest' =>
    obtain ⟨k, m'⟩ := p'
    have hszrest : sizeOf rest' < n := by
      have : sizeOf rest' < sizeOf ((k, m') :: rest') := by
        simp
      omega
    simp only [shapeOfFields] at hsh
    obtain ⟨m, rest, rfl, hm, hrest⟩ := shapeOfFields_cons_inv hsh
    have hnd2 : noDupKeys (k :: rest.map Prod.fst) = true := by
      simpa using hnd
    obtain ⟨hkfresh, hndrest⟩ := noDupKeys_cons hnd2
    have hwf2 : wfShape (shapeOfMember m) = true ∧
        wfShapeList (shapeOfFields rest) = true := by
      simpa [shapeOfFields, wfShapeList] using hwf
    have hkeysrest : rest.map Prod.fst = rest'.map Prod.fst := by
      rw [← keys_shapeOfFields rest, ← keys_shapeOfFields rest', hrest]
    have hpass : ∀ e ∈ serializeFields rest', e.1 ≠ k := by
      intro e he hek
      apply hkfresh
      rw [hkeysrest, ← hek]
      exact keys_serialize_subset (List.mem_map_of_mem Prod.fst he)
    cases m' with
    | atom skip' v' =>
      simp only [shapeOfMember] at hm
      obtain ⟨v, rfl⟩ := shapeOfMember_atom_inv hm
      cases skip' with
      | true =>
        have hser : serializeFields ((k, Member.atom true v') :: rest')
            = serializeFields rest' := by simp [serializeFields]
        rw [hser, fromObjectEntries_passOver k _ rest _ hpass]
        have hser2 : serializeFields
            ((k, Member.atom true v)
              :: (fromObjectEntries rest (serializeFields rest')).1)
            = serializeFields
              (fromObjectEntries rest (serializeFields rest')).1 := by
          simp [serializeFields]
        rw [hser2]
        exact ih (sizeOf rest') (by omega) rest rest' (le_refl _) hrest hndrest hwf2.2
      | false =>
        have hser : serializeFields ((k, Member.atom false v') :: rest')
            = (k, v') :: serializeFields rest' := by
          simp [serializeFields]
        rw [hser]
        have hstep : fromObjectEntries ((k, Member.atom false v) :: rest)
            ((k, v') :: serializeFields rest')
            = fromObjectEntries
              ((k, Member.atom false (setAtomValue v v')) :: rest)
              (serializeFields rest') := by
          simp [fromObjectEntries, lookupFirst, replaceFirst]
        rw [hstep, setAtomValue_eq,
          fromObjectEntries_passOver k _ rest _ hpass]
        have hser2 : serializeFields
            ((k, Member.atom false v')
              :: (fromObjectEntries rest (serializeFields rest')).1)
            = (k, v') :: serializeFields
              (fromObjectEntries rest (serializeFields rest')).1 := by
          simp [serializeFields]
        rw [hser2, ih (sizeOf rest') (by omega) rest rest' (le_refl _) hrest hndrest hwf2.2]
    | container cmeta' cms' =>
      simp only [shapeOfMember] at hm
      obtain ⟨cmeta, cms, rfl, hskips, hcms⟩ :=
        shapeOfMember_container_inv hm
      have hszcms : sizeOf cms' < n := by
        have : sizeOf cms' <
            sizeOf ((k, Member.container cmeta' cms') :: rest') := by
          simp
          omega
        omega
      have hwfc : noDupKeys (cms.map Prod.fst) = true ∧
          wfShapeList (shapeOfFields cms) = true := by
        have h1 := hwf2.1
        simp only [shapeOfMember, wfShape, Bool.and_eq_true,
          keys_shapeOfFields] at h1
        exact h1
      cases hsk : cmeta'.skipSerialization with
      | true =>
        have hskm : cmeta.skipSerialization = true := by rw [hskips, hsk]
        have hser : serializeFields
            ((k, Member.container cmeta' cms') :: rest')
            = serializeFields rest' := by simp [serializeFields, hsk]
        rw [hser, fromObjectEntries_passOver k _ rest _ hpass]
        have hser2 : serializeFields
            ((k, Member.container cmeta cms)
              :: (fromObjectEntries rest (serializeFields rest')).1)
            = serializeFields
              (fromObjectEntries rest (serializeFields rest')).1 := by
          simp [serializeFields, hskm]
        rw [hser2]
        exact ih (sizeOf rest') (by omega) rest rest' (le_refl _) hrest hndrest hwf2.2
      | false =>
        have hskm : cmeta.skipSerialization = false := by rw [hskips, hsk]
        have hser : serializeFields
            ((k, Member.container cmeta' cms') :: rest')
            = (k, .obj (serializeFields cms')) :: serializeFields rest' := by
          simp [serializeFields, hsk]
        rw [hser]
        have hstep : (fromObjectEntries
            ((k, Member.container cmeta cms) :: rest)
            ((k, DataObj.obj (serializeFields cms'))
              :: serializeFields rest')).1
            = (fromObjectEntries
                ((k, Member.container
                  (fromObject cmeta cms
                    (DataObj.obj (serializeFields cms'))).1
                  (fromObject cmeta cms
                    (DataObj.obj (serializeFields cms'))).2.1) :: rest)
                (serializeFields rest')).1 := by
          simp [fromObjectEntries, lookupFirst, replaceFirst]
        rw [hstep, fromObjectEntries_passOver k _ rest _ hpass]
        have hmeta1 : (fromObject cmeta cms
            (DataObj.obj (serializeFields cms'))).1.skipSerialization
            = false := by
          simp [fromObject, validateInitialized_fst, hskm]
        have hms1 : (fromObject cmeta cms
            (DataObj.obj (serializeFields cms'))).2.1
            = (fromObjectEntries cms (serializeFields cms')).1 := by
          simp [fromObject, entriesOf]
        have hser2 : serializeFields
            ((k, Member.container
              (fromObject cmeta cms
                (DataObj.obj (serializeFields cms'))).1
              (fromObject cmeta cms
                (DataObj.obj (serializeFields cms'))).2.1)
              :: (fromObjectEntries rest (serializeFields rest')).1)
            = (k, .obj (serializeFields
                (fromObject cmeta cms
                  (DataObj.obj (serializeFields cms'))).2.1))
              :: serializeFields
                (fromObjectEntries rest (serializeFields rest')).1 := by
          simp [serializeFields, hmeta1]
        rw [hser2, hms1,
          ih (sizeOf cms') (by omega) cms cms' (le_refl _) hcms hwfc.1
            hwfc.2,
          ih (sizeOf rest') (by omega) rest rest' (le_refl _) hrest
            hndrest hwf2.2]

/-- Round-trip at the member-list level. -/
theorem roundtrip_entries (ms ms' : List (String × Member))
    (hsh : shapeOfFields ms = shapeOfFields ms')
    (hnd : noDupKeys (ms.map Prod.fst) = true)
    (hwf : wfShapeList (shapeOfFields ms) = true) :
    serializeFields (fromObjectEntries ms (serializeFields ms')).1
      = serializeFields ms' :=
  roundtrip_entries_aux (sizeOf ms') ms ms' (le_refl _) hsh hnd hwf

/-- Replacing a member by one of the same shape keeps the list shape. -/
theorem shape_replaceFirst {ms : List (String × Member)} {key : String}
    {m0 m' : Member} (hl : lookupFirst ms key = some m0)
    (hsh : shapeOfMember m' = shapeOfMember m0) :
    shapeOfFields (replaceFirst ms key m') = shapeOfFields ms := by
  induction ms with
  | nil => simp [lookupFirst] at hl
  | cons p rest ih =>
    obtain ⟨k0, mm⟩ := p
    by_cases hk : k0 = key
    · subst hk
      simp only [lookupFirst, if_pos trivial, eq_self_iff_true, if_true,
        Option.some.injEq] at hl
      subst hl
      simp [replaceFirst, shapeOfFields, hsh]
    · simp only [lookupFirst, if_neg hk] at hl
      simp [replaceFirst, hk, shapeOfFields, ih hl]

/-- `fromObject` never changes the shape of the member tree. -/
theorem fromObjectEntries_shape_aux (n : Nat) :
    ∀ (ms : List (String × Member)) (es : List (String × DataObj)),
    sizeOf es ≤ n →
    shapeOfFields (fromObjectEntries ms es).1 = shapeOfFields ms := by
  induction n using Nat.strong_induction_on with
  | _ n ih =>
  intro ms es hn
  cases es with
  | nil => simp [fromObjectEntries]
  | cons e rest =>
    obtain ⟨key, value⟩ := e
    have hszrest : sizeOf rest < n := by
      have : sizeOf rest < sizeOf ((key, value) :: rest) := by simp
      omega
    have hszval : sizeOf (entriesOf value) < n := by
      have h1 := sizeOf_entriesOf value
      have h2 : sizeOf value < sizeOf ((key, value) :: rest) := by
        simp
        omega
      omega
    cases hl : lookupFirst ms key with
    | none =>
      simp [fromObjectEntries, hl,
        ih (sizeOf rest) hszrest ms rest (le_refl _)]
    | some mm =>
      cases mm with
      | atom skip v =>
        have hrep := shape_replaceFirst hl
          (show shapeOfMember (.atom skip (setAtomValue v value))
            = shapeOfMember (.atom skip v) by simp [shapeOfMember])
        simp only [fromObjectEntries, hl]
        rw [ih (sizeOf rest) hszrest _ rest (le_refl _), hrep]
      | container cmeta cms =>
        have hshm : shapeOfMember (.container (fromObject cmeta cms value).1
            (fromObject cmeta cms value).2.1)
            = shapeOfMember (.container cmeta cms) := by
          simp only [shapeOfMember, fromObject, validateInitialized_fst,
            Shape.containerS.injEq]
          exact ⟨trivial,
            ih (sizeOf (entriesOf value)) hszval cms (entriesOf value)
              (le_refl _)⟩
        have hrep := shape_replaceFirst hl hshm
        simp only [fromObjectEntries, hl]
        rw [ih (sizeOf rest) hszrest _ rest (le_refl _), hrep]

/-- `fromObject` never changes the shape of the member tree. -/
theorem fromObjectEntries_shape (ms : List (String × Member))
    (es : List (String × DataObj)) :
    shapeOfFields (fromObjectEntries ms es).1 = shapeOfFields ms :=
  fromObjectEntries_shape_aux (sizeOf es) ms es (le_refl _)

/-- C3: for every container tree with distinct member names,
`fromObject(toObject())` reproduces an observably identical tree:
its `toObject()` is equal to the original `toObject()` result. -/
theorem c3_roundtrip_toObject_fromObject (c : Container)
    (hwf : wfMembers c.members = true) :
    Container.toObject ((Container.fromObject c (Container.toObject c)).1)
      = Container.toObject c := by
  simp only [wfMembers, wfShape, Bool.and_eq_true,
    keys_shapeOfFields] at hwf
  have h := roundtrip_entries c.members c.members rfl hwf.1 hwf.2
  simp only [Container.toObject, toObject, Container.fromObject,
    fromObject, entriesOf, DataObj.obj.injEq]
  exact h

/-- Witness for C3: a two-atom container with a nested sub-container
round-trips. -/
theorem c3_roundtrip_toObject_fromObject_witness :
    Container.toObject
      ((Container.fromObject
        ⟨⟨"W", false, false, [], -1, true, false, false⟩,
         [("a", Member.atom false (.prim (.num 1))),
          ("sub", Member.container
            ⟨"S", false, false, [], -1, true, false, false⟩
            [("b", Member.atom false (.prim (.str "x")))])]⟩
        (Container.toObject
          ⟨⟨"W", false, false, [], -1, true, false, false⟩,
           [("a", Member.atom false (.prim (.num 1))),
            ("sub", Member.container
              ⟨"S", false, false, [], -1, true, false, false⟩
              [("b", Member.atom false (.prim (.str "x")))])]⟩)).1)
      = Container.toObject
        ⟨⟨"W", false, false, [], -1, true, false, false⟩,
         [("a", Member.atom false (.prim (.num 1))),
          ("sub", Member.container
            ⟨"S", false, false, [], -1, true, false, false⟩
            [("b", Member.atom false (.prim (.str "x")))])]⟩ :=
  c3_roundtrip_toObject_fromObject
    ⟨⟨"W", false, false, [], -1, true, false, false⟩,
     [("a", Member.atom false (.prim (.num 1))),
      ("sub", Member.container
        ⟨"S", false, false, [], -1, true, false, false⟩
        [("b", Member.atom false (.prim (.str "x")))])]⟩
    (by decide)

/-- On an initialized container the guard is a no-op on the state. -/
theorem validateInitialized_initialized {m : CMeta} (op : String)
    (h : m.isInitialized = true) : (validateInitialized m op).1 = m := by
  obtain ⟨n, sk, uh, hist, hi, ii, hw, ha⟩ := m
  simp only at h
  subst h
  cases hw <;> simp [validateInitialized]

/-- `splice(length)` keeps the whole array. -/
theorem spliceKeep_length_self {α : Type} (l : List α) :
    Container.spliceKeep l (l.length : Int) = l := by
  unfold Container.spliceKeep
  rw [if_neg (by omega)]
  simp

/-- Initialization of a freshly constructed history-enabled container:
guard marked, `_historyListener` attached, and one initial checkpoint
holding the construction-time snapshot at cursor `0`. -/
theorem init_c0 (nm : String) (sk : Bool) (ms : List (String × Member)) :
    (Container.init ⟨⟨nm, sk, true, [], -1, false, false, false⟩, ms⟩).1
      = ⟨⟨nm, sk, true, [toObject ms], 0, true, false, true⟩, ms⟩ := by
  simp [Container.init, Container.initHistory, Container.addHistory,
    validateInitialized, Container.spliceKeep, toObject]

/-- One mutation-and-checkpoint step preserves the checkpoint-boundary
state and appends exactly the new snapshot. -/
theorem histStep_runP {sh : List (String × Shape)} (c : Container)
    (x : DataObj) (h : RunP sh c) :
    RunP sh (histStep c x) ∧
    (histStep c x).meta.history
      = c.meta.history ++ [toObject (histStep c x).members] := by
  obtain ⟨h1, h2, h3, h4, h5, h6, h7⟩ := h
  have hmem : ((Container.fromObject c x).1).members
      = (fromObjectEntries c.members (entriesOf x)).1 := by
    simp [Container.fromObject, fromObject]
  have hmeta : ((Container.fromObject c x).1).meta = c.meta := by
    simp [Container.fromObject, fromObject,
      validateInitialized_initialized _ h2]
  have hstep : histStep c x
      = ⟨{ c.meta with
            historyIndex := c.meta.historyIndex + 1
            history := Container.spliceKeep c.meta.history
                (c.meta.historyIndex + 1)
              ++ [toObject (fromObjectEntries c.members (entriesOf x)).1] },
         (fromObjectEntries c.members (entriesOf x)).1⟩ := by
    simp only [histStep, Container.addHistory, hmem, hmeta,
      validateInitialized_initialized _ h2, h1, Bool.not_true,
      Bool.false_eq_true, if_false]
  have hsplice : Container.spliceKeep c.meta.history
      (c.meta.historyIndex + 1) = c.meta.history := by
    rw [show c.meta.historyIndex + 1 = (c.meta.history.length : Int) by
      omega]
    exact spliceKeep_length_self _
  have hshape : shapeOfFields
      (fromObjectEntries c.members (entriesOf x)).1 = sh := by
    rw [fromObjectEntries_shape, h3]
  rw [hstep]
  refine ⟨⟨h1, h2, hshape, ?_, ?_, ?_, ?_⟩, ?_⟩
  · simp [hsplice]
    omega
  · simp [hsplice]
  · simp [hsplice]
  · intro d hd
    simp only [hsplice, List.mem_append, List.mem_singleton] at hd
    rcases hd with hd | hd
    · exact h7 d hd
    · exact ⟨(fromObjectEntries c.members (entriesOf x)).1, hshape,
        by rw [hd]⟩
  · simp [hsplice, hstep]

/-- A whole run preserves the checkpoint-boundary state and appends
exactly its snapshots. -/
theorem runHist_props {sh : List (String × Shape)} (c : Container)
    (xs : List DataObj) (h : RunP sh c) :
    RunP sh (runHist c xs) ∧
    (runHist c xs).meta.history = c.meta.history ++ snapshotsOf c xs := by
  induction xs generalizing c with
  | nil => exact ⟨h, by simp [runHist, snapshotsOf]⟩
  | cons x xs ih =>
    obtain ⟨hP, happ⟩ := histStep_runP c x h
    obtain ⟨hP2, happ2⟩ := ih _ hP
    refine ⟨hP2, ?_⟩
    rw [runHist] at *
    rw [happ2, happ, snapshotsOf]
    simp

/-- The run has one snapshot per step. -/
theorem snapshotsOf_length (c : Container) (xs : List DataObj) :
    (snapshotsOf c xs).length = xs.length := by
  induction xs generalizing c with
  | nil => rfl
  | cons x xs ih => simp [snapshotsOf, ih]

/-- The `k`-th snapshot of a run is the serialization of the state after
`k + 1` steps. -/
theorem snapshotsOf_get (c : Container) (xs : List DataObj) (k : Nat)
    (hk : k < xs.length) :
    (snapshotsOf c xs)[k]?
      = some (toObject (runHist c (xs.take (k + 1))).members) := by
  induction xs generalizing c k with
  | nil => simp at hk
  | cons x xs ih =>
    cases k with
    | zero => simp [snapshotsOf, runHist]
    | succ k =>
      simp only [snapshotsOf, List.getElem?_cons_succ, List.take,
        runHist]
      exact ih _ k (by simpa using hk)
/-- `undo()` below the first entry is a no-op. -/
theorem undo_stop (c : Container) (h2 : c.meta.isInitialized = true)
    (hidx : c.meta.historyIndex ≤ 0) : applyUndo c = c := by
  simp only [applyUndo, Container.undo,
    validateInitialized_initialized _ h2]
  rw [if_pos (by simp [hidx])]

/-- One `undo()` step: within the stack, the cursor moves down one and
the state becomes the snapshot there; the stack itself is untouched. -/
theorem undo_step {sh : List (String × Shape)} (c : Container)
    (hI : UndoInv sh c) (hk : noDupKeys (sh.map Prod.fst) = true)
    (hs : wfShapeList sh = true) (hpos : 0 < c.meta.historyIndex) :
    UndoInv sh (applyUndo c) ∧
    (applyUndo c).meta.history = c.meta.history ∧
    (applyUndo c).meta.historyIndex = c.meta.historyIndex - 1 := by
  obtain ⟨h1, h2, h3, h4, h5, h6, h7⟩ := hI
  have hguard : ¬((!c.meta.useHistory
      || decide (c.meta.historyIndex ≤ 0)) = true) := by
    simp [h1]
    omega
  have hconv : (c.meta.historyIndex - 1).toNat
      = c.meta.historyIndex.toNat - 1 := by omega
  have hlt : c.meta.historyIndex.toNat - 1 < c.meta.history.length := by
    omega
  have hgetD : c.meta.history.getD (c.meta.historyIndex - 1).toNat
      (.obj []) = c.meta.history[c.meta.historyIndex.toNat - 1] := by
    rw [hconv, List.getD_eq_getElem?_getD, List.getElem?_eq_getElem hlt]
    rfl
  obtain ⟨xs, hxsh, hxval⟩ :=
    h7 _ (List.getElem_mem
      (l := c.meta.history) (n := c.meta.historyIndex.toNat - 1) hlt)
  have hstep : applyUndo c
      = ⟨{ c.meta with historyIndex := c.meta.historyIndex - 1 },
         (fromObjectEntries c.members
           (entriesOf
             (c.meta.history[c.meta.historyIndex.toNat - 1]))).1⟩ := by
    simp only [applyUndo, Container.undo,
      validateInitialized_initialized _ h2]
    rw [if_neg hguard]
    simp only [fromObject, hgetD]
    rw [validateInitialized_initialized
      (m := { c.meta with historyIndex := c.meta.historyIndex - 1 })
      "fromObject" h2]
  have hent : entriesOf (c.meta.history[c.meta.historyIndex.toNat - 1])
      = serializeFields xs := by
    rw [hxval]
    simp [toObject, entriesOf]
  have hshm : shapeOfFields c.members = shapeOfFields xs := by
    rw [h3, hxsh]
  have hnd : noDupKeys (c.members.map Prod.fst) = true := by
    rw [← keys_shapeOfFields, h3]
    exact hk
  have hwfl : wfShapeList (shapeOfFields c.members) = true := by
    rw [h3]
    exact hs
  have hrt := roundtrip_entries c.members xs hshm hnd hwfl
  have hto : toObject (fromObjectEntries c.members
      (entriesOf (c.meta.history[c.meta.historyIndex.toNat - 1]))).1
      = c.meta.history[c.meta.historyIndex.toNat - 1] := by
    rw [hent, hxval]
    simp only [toObject, DataObj.obj.injEq]
    exact hrt
  rw [hstep]
  refine ⟨⟨h1, h2, ?_, by simp; omega, by simp; omega, ?_, h7⟩,
    rfl, rfl⟩
  · rw [fromObjectEntries_shape, h3]
  · simp only [hto, hconv]
    exact List.getElem?_eq_getElem hlt

/-- One `redo()` step: within the stack, the cursor moves up one and the
state becomes the snapshot there; the stack itself is untouched. -/
theorem redo_step {sh : List (String × Shape)} (c : Container)
    (hI : UndoInv sh c) (hk : noDupKeys (sh.map Prod.fst) = true)
    (hs : wfShapeList sh = true)
    (hlt0 : c.meta.historyIndex < (c.meta.history.length : Int) - 1) :
    UndoInv sh (applyRedo c) ∧
    (applyRedo c).meta.history = c.meta.history ∧
    (applyRedo c).meta.historyIndex = c.meta.historyIndex + 1 := by
  obtain ⟨h1, h2, h3, h4, h5, h6, h7⟩ := hI
  have hguard : ¬((!c.meta.useHistory
      || decide (c.meta.historyIndex ≥ (c.meta.history.length : Int) - 1))
      = true) := by
    simp [h1]
    omega
  have hconv : (c.meta.historyIndex + 1).toNat
      = c.meta.historyIndex.toNat + 1 := by omega
  have hlt : c.meta.historyIndex.toNat + 1 < c.meta.history.length := by
    omega
  have hgetD : c.meta.history.getD (c.meta.historyIndex + 1).toNat
      (.obj []) = c.meta.history[c.meta.historyIndex.toNat + 1] := by
    rw [hconv, List.getD_eq_getElem?_getD, List.getElem?_eq_getElem hlt]
    rfl
  obtain ⟨xs, hxsh, hxval⟩ :=
    h7 _ (List.getElem_mem
      (l := c.meta.history) (n := c.meta.historyIndex.toNat + 1) hlt)
  have hstep : applyRedo c
      = ⟨{ c.meta with historyIndex := c.meta.historyIndex + 1 },
         (fromObjectEntries c.members
           (entriesOf
             (c.meta.history[c.meta.historyIndex.toNat + 1]))).1⟩ := by
    simp only [applyRedo, Container.redo,
      validateInitialized_initialized _ h2]
    rw [if_neg hguard]
    simp only [fromObject, hgetD]
    rw [validateInitialized_initialized
      (m := { c.meta with historyIndex := c.meta.historyIndex + 1 })
      "fromObject" h2]
  have hent : entriesOf (c.meta.history[c.meta.historyIndex.toNat + 1])
      = serializeFields xs := by
    rw [hxval]
    simp [toObject, entriesOf]
  have hshm : shapeOfFields c.members = shapeOfFields xs := by
    rw [h3, hxsh]
  have hnd : noDupKeys (c.members.map Prod.fst) = true := by
    rw [← keys_shapeOfFields, h3]
    exact hk
  have hwfl : wfShapeList (shapeOfFields c.members) = true := by
    rw [h3]
    exact hs
  have hrt := roundtrip_entries c.members xs hshm hnd hwfl
  have hto : toObject (fromObjectEntries c.members
      (entriesOf (c.meta.history[c.meta.historyIndex.toNat + 1]))).1
      = c.meta.history[c.meta.historyIndex.toNat + 1] := by
    rw [hent, hxval]
    simp only [toObject, DataObj.obj.injEq]
    exact hrt
  rw [hstep]
  refine ⟨⟨h1, h2, ?_, by simp; omega, by simp; omega, ?_, h7⟩,
    rfl, rfl⟩
  · rw [fromObjectEntries_shape, h3]
  · simp only [hto, hconv]
    exact List.getElem?_eq_getElem hlt

/-- Iterated `undo()` within the stack: the cursor moves down `j`
positions, the stack is untouched. -/
theorem undo_iter {sh : List (String × Shape)}
    (hk : noDupKeys (sh.map Prod.fst) = true)
    (hs : wfShapeList sh = true) :
    ∀ (j : Nat) (c : Container), UndoInv sh c →
    (j : Int) ≤ c.meta.historyIndex →
    UndoInv sh (applyUndo^[j] c) ∧
    (applyUndo^[j] c).meta.history = c.meta.history ∧
    (applyUndo^[j] c).meta.historyIndex = c.meta.historyIndex - j := by
  intro j
  induction j with
  | zero =>
    intro c h _
    exact ⟨h, rfl, by simp⟩
  | succ j ihj =>
    intro c h hle
    rw [Function.iterate_succ_apply]
    push_cast at hle
    have hpos : 0 < c.meta.historyIndex := by omega
    obtain ⟨hI, hH, hidx⟩ := undo_step c h hk hs hpos
    obtain ⟨hI2, hH2, hidx2⟩ := ihj _ hI (by rw [hidx]; omega)
    refine ⟨hI2, by rw [hH2, hH], ?_⟩
    rw [hidx2, hidx]
    push_cast
    omega

/-- Iterated `redo()` within the stack: the cursor moves up `k`
positions, the stack is untouched. -/
theorem redo_iter {sh : List (String × Shape)}
    (hk : noDupKeys (sh.map Prod.fst) = true)
    (hs : wfShapeList sh = true) :
    ∀ (k : Nat) (c : Container), UndoInv sh c →
    c.meta.historyIndex + k ≤ (c.meta.history.length : Int) - 1 →
    UndoInv sh (applyRedo^[k] c) ∧
    (applyRedo^[k] c).meta.history = c.meta.history ∧
    (applyRedo^[k] c).meta.historyIndex = c.meta.historyIndex + k := by
  intro k
  induction k with
  | zero =>
    intro c h _
    exact ⟨h, rfl, by simp⟩
  | succ k ihk =>
    intro c h hle
    rw [Function.iterate_succ_apply]
    push_cast at hle
    have hlt0 : c.meta.historyIndex
        < (c.meta.history.length : Int) - 1 := by omega
    obtain ⟨hI, hH, hidx⟩ := redo_step c h hk hs hlt0
    obtain ⟨hI2, hH2, hidx2⟩ := ihk _ hI (by rw [hidx, hH]; omega)
    refine ⟨hI2, by rw [hH2, hH], ?_⟩
    rw [hidx2, hidx]
    push_cast
    omega

/-- `load()` on a history-enabled container leaves a single-entry stack
with the cursor at its first entry, so an immediate `undo()` is a
no-op. -/
theorem load_undo_noop (c : Container) (obj : DataObj)
    (hu : c.meta.useHistory = true) :
    applyUndo ((Container.load c obj).1) = (Container.load c obj).1 := by
  obtain ⟨⟨n, sk, uh, hist, idx, ii, hw, ha⟩, mems⟩ := c
  simp only at hu
  subst hu
  cases ii <;> cases hw <;>
    simp [Container.load, Container.addHistory, applyUndo,
      Container.undo, fromObject, validateInitialized,
      Container.spliceKeep]
/-- C4: for a container constructed with `useHistory: true` and set up,
after `N` mutation-plus-`addHistory` steps, `N` `undo()` calls restore
the setup-time state and a further `undo()` is a no-op (bounded at the
first entry); `k` `redo()` calls after the undos restore the state after
`k` steps of the forward progression; and `undo()` immediately after
`load(x)` is a no-op because `load` clears the history. -/
theorem c4_undo_redo_history (nm : String) (sk : Bool)
    (ms : List (String × Member)) (xs : List DataObj)
    (hwf : wfMembers ms = true) :
    (Container.toObject (applyUndo^[xs.length]
        (runHist (Container.init
          ⟨⟨nm, sk, true, [], -1, false, false, false⟩, ms⟩).1 xs))
      = toObject ms) ∧
    (applyUndo (applyUndo^[xs.length]
        (runHist (Container.init
          ⟨⟨nm, sk, true, [], -1, false, false, false⟩, ms⟩).1 xs))
      = applyUndo^[xs.length]
        (runHist (Container.init
          ⟨⟨nm, sk, true, [], -1, false, false, false⟩, ms⟩).1 xs)) ∧
    (∀ k, k ≤ xs.length →
      Container.toObject (applyRedo^[k] (applyUndo^[xs.length]
        (runHist (Container.init
          ⟨⟨nm, sk, true, [], -1, false, false, false⟩, ms⟩).1 xs)))
      = Container.toObject (runHist (Container.init
          ⟨⟨nm, sk, true, [], -1, false, false, false⟩, ms⟩).1
          (xs.take k))) ∧
    (∀ (c : Container) (obj : DataObj), c.meta.useHistory = true →
      applyUndo ((Container.load c obj).1) = (Container.load c obj).1) := by
  rw [init_c0]
  simp only [wfMembers, wfShape, Bool.and_eq_true,
    keys_shapeOfFields] at hwf
  set cl : Container :=
    ⟨⟨nm, sk, true, [toObject ms], 0, true, false, true⟩, ms⟩ with hcl
  have hrun : RunP (shapeOfFields ms) cl := by
    refine ⟨rfl, rfl, rfl, by simp [hcl], by simp [hcl], by simp [hcl],
      ?_⟩
    intro d hd
    simp only [hcl, List.mem_singleton] at hd
    exact ⟨ms, rfl, hd⟩
  obtain ⟨hPN, hHN⟩ := runHist_props cl xs hrun
  set cN := runHist cl xs with hcN
  obtain ⟨g1, g2, g3, g4, g5, g6, g7⟩ := hPN
  have hHlen : cN.meta.history.length = xs.length + 1 := by
    rw [hHN]
    simp [hcl, snapshotsOf_length]
  have hidxN : cN.meta.historyIndex = (xs.length : Int) := by
    rw [g4, hHlen]
    push_cast
    omega
  have hUI : UndoInv (shapeOfFields ms) cN := by
    refine ⟨g1, g2, g3, by omega, by omega, ?_, g7⟩
    have ht : cN.meta.historyIndex.toNat
        = cN.meta.history.length - 1 := by omega
    rw [ht, ← List.getLast?_eq_getElem?]
    exact g6
  have hk2 : noDupKeys ((shapeOfFields ms).map Prod.fst) = true := by
    rw [keys_shapeOfFields]
    exact hwf.1
  obtain ⟨hU, hUH, hUidx⟩ :=
    undo_iter hk2 hwf.2 xs.length cN hUI (by omega)
  set u := applyUndo^[xs.length] cN with hu
  have huidx : u.meta.historyIndex = 0 := by
    rw [hUidx, hidxN]
    omega
  obtain ⟨u1, u2, u3, u4, u5, u6, u7⟩ := hU
  have hHcons : u.meta.history
      = toObject ms :: snapshotsOf cl xs := by
    rw [hUH, hHN]
    simp [hcl]
  have hH0 : u.meta.history[u.meta.historyIndex.toNat]?
      = some (toObject ms) := by
    rw [huidx, hHcons]
    simp
  have hObjU : toObject u.members = toObject ms := by
    rw [u6] at hH0
    exact (Option.some.injEq _ _).mp hH0
  refine ⟨hObjU, undo_stop u u2 (by rw [huidx]), ?_,
    fun c obj hu' => load_undo_noop c obj hu'⟩
  intro k hk'
  have hulen : (u.meta.history.length : Int) = (xs.length : Int) + 1 := by
    rw [hUH]
    push_cast [hHlen]
    ring
  obtain ⟨hR, hRH, hRidx⟩ := redo_iter hk2 hwf.2 k u
    ⟨u1, u2, u3, u4, u5, u6, u7⟩
    (by rw [huidx, hulen]; omega)
  obtain ⟨r1, r2, r3, r4, r5, r6, r7⟩ := hR
  have hridx : (applyRedo^[k] u).meta.historyIndex.toNat = k := by
    rw [hRidx, huidx]
    omega
  have hHk : u.meta.history[k]?
      = some (toObject (runHist cl (xs.take k)).members) := by
    rw [hHcons]
    cases k with
    | zero => simp [runHist]
    | succ j =>
      have hj : j < xs.length := by omega
      simp only [List.getElem?_cons_succ]
      rw [snapshotsOf_get cl xs j hj]
  rw [hRH, hridx, hHk] at r6
  simp only [Container.toObject]
  exact ((Option.some.injEq _ _).mp r6).symm

/-- Witness for C4 at a concrete two-step run: a one-atom container,
two mutations with checkpoints, two undos restore the initial snapshot,
a third undo is a no-op, and one redo restores the first mutation. -/
theorem c4_undo_redo_history_witness :
    (Container.toObject (applyUndo^[2]
        (runHist (Container.init
          ⟨⟨"W", false, true, [], -1, false, false, false⟩,
           [("a", Member.atom false (.prim (.num 0)))]⟩).1
          [.obj [("a", .prim (.num 1))], .obj [("a", .prim (.num 2))]]))
      = toObject [("a", Member.atom false (.prim (.num 0)))]) ∧
    (Container.toObject (applyRedo^[1] (applyUndo^[2]
        (runHist (Container.init
          ⟨⟨"W", false, true, [], -1, false, false, false⟩,
           [("a", Member.atom false (.prim (.num 0)))]⟩).1
          [.obj [("a", .prim (.num 1))], .obj [("a", .prim (.num 2))]])))
      = Container.toObject (runHist (Container.init
          ⟨⟨"W", false, true, [], -1, false, false, false⟩,
           [("a", Member.atom false (.prim (.num 0)))]⟩).1
          ([DataObj.obj [("a", .prim (.num 1))],
            .obj [("a", .prim (.num 2))]].take 1))) :=
  have h := c4_undo_redo_history "W" false
    [("a", Member.atom false (.prim (.num 0)))]
    [.obj [("a", .prim (.num 1))], .obj [("a", .prim (.num 2))]]
    (by decide)
  ⟨h.1, h.2.2.1 1 (by decide)⟩

end StateAtoms
